import Mathlib

/-!
Verification of the SRT-to-records parsing core of the srt-excel-converter
application (`app.py`).  Strings are modelled as `List Char`; Python's
regular-expression based helpers are embedded as executable Lean functions
that follow the exact scanning semantics of the patterns used in the source
(`re.sub`, `re.split`, `re.match` with the concrete fixed patterns).
Character classes (`\w`, `\s`, `\d`) are modelled over ASCII.

Ghost instrumentation: the parser state carries, in addition to the fields of
the Python program (`data`, `last_known_speaker`), two specification-only
logs that do not influence any computation of the data fields: an `events`
log describing each emitted record (which branch emitted it, the
`last_known_speaker` before/after, the `block_initial_speaker` at that time,
and whether a record had already been emitted in the current block), and a
`validated` log of every tag accepted by `is_valid_speaker_tag` during the
run.  Each emitted row also carries the ghost field `raw`, the dialogue text
before `clean_dialogue_text` was applied to it.
-/

set_option maxRecDepth 10000

/-- Python `\s` / `str.strip()` whitespace, restricted to ASCII. -/
def isWS (c : Char) : Bool :=
  c == ' ' || c == '\t' || c == '\n' || c == '\r' || c == '\x0b' || c == '\x0c'

/-- Python `str.strip()`: drop whitespace from both ends. -/
def stripWS (l : List Char) : List Char :=
  ((l.dropWhile isWS).reverse.dropWhile isWS).reverse

/-- Is the first character whitespace? -/
def headIsWS : List Char → Bool
  | [] => false
  | c :: _ => isWS c

/-- Python `re.sub(r'\s+', ' ', text)`: every maximal run of whitespace
becomes a single space.  Written structurally: a whitespace character is
dropped when more whitespace follows, and the last character of each run
becomes the single `' '`. -/
def collapseWS : List Char → List Char
  | [] => []
  | c :: rest =>
    if isWS c then
      (if headIsWS rest then collapseWS rest else ' ' :: collapseWS rest)
    else c :: collapseWS rest

/-- The final whitespace normalisation of `clean_dialogue_text`:
`re.sub(r'\s+', ' ', text).strip()`. -/
def normWS (l : List Char) : List Char := stripWS (collapseWS l)

/-- Python `\w` (ASCII): letters, digits, underscore. -/
def isWordChar (c : Char) : Bool := c.isAlpha || c.isDigit || c == '_'

/-- Python `str.lower()` (ASCII). -/
def toLowerList (l : List Char) : List Char := l.map Char.toLower

/-- Python `str.isupper()` (ASCII): at least one cased character and no
lower-case cased character. -/
def isUpperStr (l : List Char) : Bool :=
  l.any Char.isUpper && !(l.any Char.isLower)

/-- Python `str.split()` with no argument: maximal runs of non-whitespace
characters, runs of whitespace are separators, no empty words. -/
def wsWords : List Char → List (List Char)
  | [] => []
  | c :: rest =>
    if isWS c then wsWords rest
    else
      match rest, wsWords rest with
      | [], _ => [[c]]
      | _ :: _, [] => [[c]]
      | r :: _, w :: ws => if isWS r then [c] :: w :: ws else (c :: w) :: ws

/-- Python `tag.replace(' and ', ' ')`. -/
def replaceAndMid : List Char → List Char
  | ' ' :: 'a' :: 'n' :: 'd' :: ' ' :: rest => ' ' :: replaceAndMid rest
  | c :: rest => c :: replaceAndMid rest
  | [] => []

/-- Python `tag.replace(' and', '')`. -/
def replaceAndBare : List Char → List Char
  | ' ' :: 'a' :: 'n' :: 'd' :: rest => replaceAndBare rest
  | c :: rest => c :: replaceAndBare rest
  | [] => []

/-- Python `tag.replace('&', ' ')`. -/
def replaceAmp : List Char → List Char
  | '&' :: rest => ' ' :: replaceAmp rest
  | c :: rest => c :: replaceAmp rest
  | [] => []

-- --- CONFIGURATION (app.py) ---

def MAX_SPEAKER_NAME_LENGTH : Nat := 35

def MAX_SPEAKER_NAME_WORDS : Nat := 4

/-- The exclusion list `NON_SPEAKER_PHRASES` of app.py (all lowercase). -/
def NON_SPEAKER_PHRASES : List (List Char) :=
  ["the only problem".toList,
   "note".toList,
   "warning".toList,
   "things".toList,
   "and on the way we came across this".toList,
   "this is the highest swing in europe".toList,
   "and i swear".toList,
   "which meant".toList,
   "the only thing is".toList,
   "and remember".toList,
   "official distance".toList,
   "first and foremost".toList,
   "i said".toList,
   "here we go".toList, "next up".toList, "step 1".toList, "step 2".toList,
   "step 3".toList, "and step 3".toList, "first up".toList,
   "so the question is".toList, "i was growing up".toList,
   "you might be wondering".toList, "update".toList,
   "nashville to miami".toList, "all i know is".toList, "unlike judy".toList,
   "the good news is".toList,
   "aer lingus seat".toList, "the true test is".toList,
   "just as i suspected".toList, "like i said".toList,
   "star review and said".toList, "i told them all".toList,
   "and best of all".toList, "the point is".toList,
   "americans".toList, "i was thinking".toList, "and they go".toList,
   "first of all".toList, "second".toList,
   "are you like".toList, "as a reminder".toList, "round 2".toList,
   "round 1".toList, "round 3".toList, "round 4".toList,
   "round 5".toList, "welcome to round 3".toList, "the question is".toList,
   "quick reminder".toList,
   "in 2nd place".toList, "coming up".toList, "first stop".toList,
   "next step".toList, "and that means".toList,
   "hashtag".toList, "so to be clear".toList, "your second word".toList,
   "welcome to round 6".toList,
   "battle finale time".toList, "number 1".toList, "number 2".toList,
   "but the truth is".toList,
   "score to beat".toList, "and your winner".toList,
   "\"crafty\" and \"betcha\". coming up".toList,
   "next one".toList, "keep in mind".toList, "and it says".toList,
   "you could say".toList, "welcome to round 2".toList,
   "and the best part".toList, "onto round 2".toList,
   "the ride we chose".toList, "good news is".toList,
   "bad news".toList, "good news".toList, "he thought".toList,
   "3 teams remain".toList]

/-- The sentence-starter word list `SENTENCE_STARTER_WORDS` of app.py. -/
def SENTENCE_STARTER_WORDS : List (List Char) :=
  ["the".toList, "this".toList, "that".toList, "and".toList, "but".toList,
   "it".toList, "i".toList, "we".toList, "you".toList, "they".toList,
   "he".toList, "she".toList,
   "there".toList, "here".toList, "what".toList, "which".toList,
   "who".toList, "when".toList, "why".toList, "how".toList, "a".toList,
   "an".toList, "my".toList, "his".toList,
   "her".toList, "your".toList, "its".toList, "our".toList, "their".toList]

/-- app.py `is_valid_speaker_tag`, translated clause for clause.
Note the capitalization check at the end tests `first_word`, which was
already lower-cased, exactly as the source does. -/
def is_valid_speaker_tag (tag0 : List Char) : Bool :=
  let tag := stripWS tag0
  if tag.isEmpty then false
  -- 1. Exclusion Check
  else if NON_SPEAKER_PHRASES.contains (toLowerList tag) then false
  -- 2. Length check
  else if MAX_SPEAKER_NAME_LENGTH < tag.length then false
  else
    -- 3. Word Count Heuristic Check
    let normalized_tag := stripWS (replaceAmp (replaceAndBare (replaceAndMid tag)))
    if normalized_tag.isEmpty then false
    else
      let words := wsWords normalized_tag
      if MAX_SPEAKER_NAME_WORDS < words.length then false
      else
        let first_word :=
          match words with
          | [] => toLowerList normalized_tag
          | w :: _ => toLowerList w
        -- 4. Sentence Starter Rejection
        if SENTENCE_STARTER_WORDS.contains first_word && !(isUpperStr tag) then false
        else
          -- 5. Final Capitalization check (on the lower-cased first_word)
          match first_word with
          | [] => true  -- unreachable: normalized_tag is non-empty and stripped
          | a :: _ => if a.isAlpha && a.isLower then false else true

-- --- TEXT CLEANUP (clean_dialogue_text) ---

/-- Skip characters up to and including the first `'>'`; `none` when there is
no `'>'` (then the pattern `[^>]*>` cannot match). -/
def dropThroughGt : List Char → Option (List Char)
  | [] => none
  | c :: rest => if c = '>' then some rest else dropThroughGt rest

/-- Case-insensitive character comparison (`re.IGNORECASE`, ASCII). -/
def cieq (a b : Char) : Bool := a.toLower == b.toLower

/-- Try to match the closing tag `</c[^>]*>` at the head of the list,
returning the remainder after its `'>'`. -/
def closeTagAt (c : Char) : List Char → Option (List Char)
  | '<' :: '/' :: d :: rest => if cieq d c then dropThroughGt rest else none
  | _ => none

/-- The lazy `(.*?)</c[^>]*>` search: shortest content followed by a closing
tag; returns the content and the remainder after the closing tag. -/
def findClose (c : Char) : List Char → Option (List Char × List Char)
  | [] => none
  | x :: rest =>
    match closeTagAt c (x :: rest) with
    | some after => some ([], after)
    | none =>
      match findClose c rest with
      | some (content, after) => some (x :: content, after)
      | none => none

/-- One `re.sub(r'<c[^>]*>(.*?)</c[^>]*>', r'(\1)', text)` pass, scanning
left to right; `fuel` only serves structural termination and all uses supply
`fuel = l.length`, which can never run out. -/
def subTagGo (c : Char) : Nat → List Char → List Char
  | _, [] => []
  | 0, l => l
  | fuel + 1, x :: rest =>
    if x = '<' then
      match rest with
      | [] => [x]
      | d :: rest2 =>
        if cieq d c then
          match dropThroughGt rest2 with
          | some afterOpen =>
            match findClose c afterOpen with
            | some (content, afterClose) =>
              '(' :: (content ++ ')' :: subTagGo c fuel afterClose)
            | none => x :: subTagGo c fuel rest
          | none => x :: subTagGo c fuel rest
        else x :: subTagGo c fuel rest
    else x :: subTagGo c fuel rest

def subTag (c : Char) (l : List Char) : List Char := subTagGo c l.length l

/-- `re.sub(r'<[^>]*>', '', text)`: remove every `<...>` span, scanning left
to right; a `'<'` with no later `'>'` matches nothing and everything after
it is kept. -/
def stripTagsGo : Nat → List Char → List Char
  | _, [] => []
  | 0, l => l
  | fuel + 1, x :: rest =>
    if x = '<' then
      match dropThroughGt rest with
      | some after => stripTagsGo fuel after
      | none => x :: rest
    else x :: stripTagsGo fuel rest

def stripAllTags (l : List Char) : List Char := stripTagsGo l.length l

/-- app.py `clean_dialogue_text`: i, b, u tag conversion to parentheses,
removal of remaining tags, then whitespace collapsing and stripping. -/
def clean_dialogue_text (text : List Char) : List Char :=
  normWS (stripAllTags (subTag 'u' (subTag 'b' (subTag 'i' text))))

-- --- LINE SEGMENTER (re.split with the capturing tag pattern) ---

/-- The character class `[\w\s&]` of the tag pattern. -/
def wsc (c : Char) : Bool := isWordChar c || isWS c || c == '&'

/-- Try to match the delimiter pattern `((?:[\w\s&]+?): )` at the head of the
list: a non-empty run of class characters followed by `": "`.  Returns the
captured delimiter (run plus colon and space) and the remainder.  Because
`':'` is not in the class, the lazy quantifier has exactly one candidate
length at a given start position.  `colonSpace` matches the literal `": "`. -/
def colonSpace : List Char → Option (List Char)
  | ':' :: ' ' :: r2 => some r2
  | _ => none

def tagAt : List Char → Option (List Char × List Char)
  | [] => none
  | c :: rest =>
    if wsc c then
      match tagAt rest with
      | some (t, r) => some (c :: t, r)
      | none =>
        match colonSpace rest with
        | some r2 => some ([c, ':', ' '], r2)
        | none => none
    else none

/-- Scanning loop of `re.split(r'((?:[\w\s&]+?): )', line)`: left to right,
non-overlapping, keeping the captured delimiters; `acc` is the current
interstitial text reversed.  `fuel` only serves structural termination and
all uses supply `fuel = l.length`, which can never run out. -/
def segSplitGo : Nat → List Char → List Char → List (List Char)
  | _, [], acc => [acc.reverse]
  | 0, l, acc => [acc.reverse ++ l]
  | fuel + 1, c :: rest, acc =>
    match tagAt (c :: rest) with
    | some (t, r) => acc.reverse :: t :: segSplitGo fuel r []
    | none => segSplitGo fuel rest (c :: acc)

/-- `re.split(r'((?:[\w\s&]+?): )', line)`. -/
def segSplit (l : List Char) : List (List Char) := segSplitGo l.length l []

-- --- TIMECODE EXTRACTOR ---

/-- Match `\d{2}:\d{2}:\d{2},\d{3}` at the head of the list, returning the
12 matched characters and the remainder. -/
def parseTS : List Char → Option (List Char × List Char)
  | a :: b :: ':' :: c :: d :: ':' :: e :: f :: ',' :: g :: h :: i :: rest =>
    if a.isDigit && b.isDigit && c.isDigit && d.isDigit && e.isDigit &&
       f.isDigit && g.isDigit && h.isDigit && i.isDigit then
      some ([a, b, ':', c, d, ':', e, f, ',', g, h, i], rest)
    else none
  | _ => none

/-- app.py `re.match(r'(\d{2}:\d{2}:\d{2},\d{3}) --> (\d{2}:\d{2}:\d{2},\d{3})', time_line)`:
a prefix match returning the two capture groups; trailing characters are
ignored. -/
def timeMatch (l : List Char) : Option (List Char × List Char) :=
  match parseTS l with
  | none => none
  | some (ts1, rest) =>
    match rest with
    | ' ' :: '-' :: '-' :: '>' :: ' ' :: rest2 =>
      match parseTS rest2 with
      | none => none
      | some (ts2, _) => some (ts1, ts2)
    | _ => none

-- --- BLOCK TOKENIZER (re.split(r'\n\s*\n', ...)) ---

/-- Suffix strictly after the last `'\n'` of the list. -/
def afterLastNl (l : List Char) : List Char :=
  (l.reverse.takeWhile (fun c => !(c == '\n'))).reverse

/-- Scanning loop of `re.split(r'\n\s*\n', s)`: a separator match starts at a
`'\n'`, greedily extends over whitespace, and ends at the last `'\n'` of that
whitespace run (so it needs at least two newlines in the run); the remainder
of the run belongs to the next block.  `fuel` only serves structural
termination and all uses supply `fuel = l.length`, which can never run out. -/
def blockSplitGo : Nat → List Char → List Char → List (List Char)
  | _, [], acc => [acc.reverse]
  | 0, l, acc => [acc.reverse ++ l]
  | fuel + 1, c :: rest, acc =>
    let run := (c :: rest).takeWhile isWS
    if c == '\n' && 2 ≤ run.count '\n' then
      acc.reverse :: blockSplitGo fuel (afterLastNl run ++ (c :: rest).drop run.length) []
    else
      blockSplitGo fuel rest (c :: acc)

/-- `re.split(r'\n\s*\n', s)`. -/
def blockSplit (l : List Char) : List (List Char) := blockSplitGo l.length l []

-- --- CUE ACCUMULATOR / ATTRIBUTION STATE MACHINE (parse_srt) ---

/-- Which branch of the code emitted a record (ghost information).
`tagPath` is the immediate emission of same-line dialogue following a
validated tag; `flushBis` is a flush of the accumulated buffer attributed to
`block_initial_speaker` (the `not data or data[-1][0] != time_start` branch);
`flushLast` is a flush attributed to `last_known_speaker`. -/
inductive EmitKind where
  | tagPath
  | flushBis
  | flushLast
  deriving DecidableEq

/-- One output row `[time_start, time_end, speaker, dialogue]`; `raw` is the
ghost pre-cleaning dialogue text. -/
structure Row where
  time_start : List Char
  time_end : List Char
  speaker : List Char
  dialogue : List Char
  raw : List Char
  deriving DecidableEq

/-- Ghost description of one emission: the branch that emitted, its speaker,
`last_known_speaker` before and after, `block_initial_speaker` at that
moment, and whether a record had already been emitted in the current block. -/
structure Event where
  kind : EmitKind
  speaker : List Char
  lkBefore : List Char
  lkAfter : List Char
  bis : List Char
  blockEmitted : Bool
  deriving DecidableEq

/-- The mutable state of `parse_srt`: the rows accumulated so far and
`last_known_speaker`, plus the two ghost logs. -/
structure ParseState where
  data : List Row
  last_known_speaker : List Char
  events : List Event
  validated : List (List Char)
  deriving DecidableEq

/-- The per-block loop variables: the global state, `current_dialogue`,
`block_initial_speaker`, and the ghost emitted-in-this-block flag. -/
structure LoopSt where
  st : ParseState
  cur : List Char
  bis : List Char
  be : Bool
  deriving DecidableEq

/-- app.py `append_row_and_update_state`: append a row (with the dialogue
cleaned) and set `last_known_speaker` to its speaker.  The extra arguments
`kind`, `bis`, `be` only feed the ghost event log. -/
def append_row_and_update_state (time_start time_end : List Char) (kind : EmitKind)
    (bis : List Char) (be : Bool) (st : ParseState) (speaker dialogue : List Char) :
    ParseState :=
  { data := st.data ++ [⟨time_start, time_end, speaker, clean_dialogue_text dialogue, dialogue⟩],
    last_known_speaker := speaker,
    events := st.events ++ [⟨kind, speaker, st.last_known_speaker, speaker, bis, be⟩],
    validated := st.validated }

/-- The flush of a non-empty `current_dialogue` (used both before adopting a
new speaker and at end of block): the speaker is `block_initial_speaker` if
`not data or data[-1][0] != time_start`, else `last_known_speaker`. -/
def flushIfPending (ts1 ts2 : List Char) (ls : LoopSt) : LoopSt :=
  if ls.cur = [] then ls
  else
    match ls.st.data.getLast? with
    | none =>
      { st := append_row_and_update_state ts1 ts2 .flushBis ls.bis ls.be ls.st ls.bis ls.cur,
        cur := [], bis := ls.bis, be := true }
    | some r =>
      if r.time_start ≠ ts1 then
        { st := append_row_and_update_state ts1 ts2 .flushBis ls.bis ls.be ls.st ls.bis ls.cur,
          cur := [], bis := ls.bis, be := true }
      else
        { st := append_row_and_update_state ts1 ts2 .flushLast ls.bis ls.be ls.st
            ls.st.last_known_speaker ls.cur,
          cur := [], bis := ls.bis, be := true }

/-- The valid-speaker-tag branch of the segment loop: flush buffered
dialogue, emit the following segment (if non-empty) for the new speaker, and
re-point `block_initial_speaker` when it still equals `last_known_speaker`. -/
def tagStep (ts1 ts2 speaker_tag dseg : List Char) (ls : LoopSt) : LoopSt :=
  let ls0 : LoopSt :=
    { ls with st := { ls.st with validated := ls.st.validated ++ [speaker_tag] } }
  let ls1 := flushIfPending ts1 ts2 ls0
  let ls2 : LoopSt :=
    if dseg = [] then ls1
    else
      { ls1 with
        st := append_row_and_update_state ts1 ts2 .tagPath ls1.bis ls1.be ls1.st speaker_tag dseg,
        be := true }
  let bis2 := if ls2.bis = ls2.st.last_known_speaker then speaker_tag else ls2.bis
  { ls2 with bis := bis2 }

/-- The invalid-tag branch: reconstruct `segment + " " + dialogue_segment`
and append it to the buffer. -/
def invalidTagStep (segment dseg : List Char) (ls : LoopSt) : LoopSt :=
  let recombined := segment ++ ' ' :: dseg
  { ls with cur := if ls.cur = [] then recombined else ls.cur ++ ' ' :: recombined }

/-- The plain-text branch: append the segment to the buffer. -/
def plainTextStep (segment : List Char) (ls : LoopSt) : LoopSt :=
  { ls with cur := if ls.cur = [] then segment else ls.cur ++ ' ' :: segment }

/-- app.py line 203: `segment.endswith(':') and len(segment) > 1` on the
stripped segment. -/
def isCandidateSeg (segment : List Char) : Bool :=
  segment.getLast? == some ':' && decide (1 < segment.length)

/-- The `while i < len(segments)` loop of `parse_srt`: a candidate tag
segment (valid or not) also consumes the directly following raw segment as
its `dialogue_segment`. -/
def procSegs (ts1 ts2 : List Char) : List (List Char) → LoopSt → LoopSt
  | [], ls => ls
  | seg :: rest, ls =>
    let segment := stripWS seg
    if segment = [] then procSegs ts1 ts2 rest ls
    else if isCandidateSeg segment then
      let speaker_tag := stripWS segment.dropLast
      if is_valid_speaker_tag speaker_tag then
        match rest with
        | [] => tagStep ts1 ts2 speaker_tag [] ls
        | d :: rest2 => procSegs ts1 ts2 rest2 (tagStep ts1 ts2 speaker_tag (stripWS d) ls)
      else
        match rest with
        | [] => invalidTagStep segment [] ls
        | d :: rest2 => procSegs ts1 ts2 rest2 (invalidTagStep segment (stripWS d) ls)
    else procSegs ts1 ts2 rest (plainTextStep segment ls)

/-- One dialogue line of a block: strip, skip if empty, else run the segment
loop on its split. -/
def processLine (ts1 ts2 : List Char) (ls : LoopSt) (rawLine : List Char) : LoopSt :=
  let line := stripWS rawLine
  if line = [] then ls
  else procSegs ts1 ts2 (segSplit line) ls

/-- One block of `parse_srt`, after line splitting: fewer than 3 lines or a
failing timecode match discard the block untouched; otherwise process the
dialogue lines and flush the remaining buffer. -/
def parse_block_lines (st : ParseState) (lines : List (List Char)) : ParseState :=
  match lines with
  | _ :: l1 :: l2 :: rest =>
    match timeMatch (stripWS l1) with
    | none => st
    | some (time_start, time_end) =>
      let ls0 : LoopSt := { st := st, cur := [], bis := st.last_known_speaker, be := false }
      let ls1 := (l2 :: rest).foldl (processLine time_start time_end) ls0
      (flushIfPending time_start time_end ls1).st
  | _ => st

/-- One block of `parse_srt`: `lines = block.strip().split('\n')` then the
per-block processing. -/
def parse_block (st : ParseState) (block : List Char) : ParseState :=
  parse_block_lines st ((stripWS block).splitOn '\n')

/-- The initial parser state: no rows, `last_known_speaker = "Unknown"`. -/
def initState : ParseState :=
  { data := [], last_known_speaker := "Unknown".toList, events := [], validated := [] }

/-- app.py `parse_srt`, returning the full final state (rows plus
`last_known_speaker` and the ghost logs). -/
def parse_full (srt_content : List Char) : ParseState :=
  (blockSplit (stripWS srt_content)).foldl parse_block initState

/-- app.py `parse_srt`: the ordered list of emitted rows. -/
def parse_srt (srt_content : List Char) : List Row :=
  (parse_full srt_content).data

-- --- SPECIFICATION-SIDE DEFINITIONS ---

/-- Concatenation of the segments produced by the line segmenter. -/
def joinSegs (segs : List (List Char)) : List Char := segs.flatten

/-- A well-formed `HH:MM:SS,mmm` timestamp: exactly the shape matched by one
capture group of the timecode pattern. -/
def wfTS : List Char → Bool
  | [a, b, ':', c, d, ':', e, f, ',', g, h, i] =>
    a.isDigit && b.isDigit && c.isDigit && d.isDigit && e.isDigit &&
    f.isDigit && g.isDigit && h.isDigit && i.isDigit
  | _ => false

/-- The literal `" --> "` separating the two timestamps. -/
def arrowSep : List Char := [' ', '-', '-', '>', ' ']

/-- A block whose (stripped) line list has at least 3 entries and whose
second line passes the timecode gate. -/
def blockPassesGate (block : List Char) : Bool :=
  match (stripWS block).splitOn '\n' with
  | _ :: l1 :: _ :: _ => (timeMatch (stripWS l1)).isSome
  | _ => false

/-- Claim C4's counted blocks: gate passed and at least one dialogue line
that is non-empty after stripping. -/
def blockQualifiesClaim (block : List Char) : Bool :=
  match (stripWS block).splitOn '\n' with
  | _ :: l1 :: l2 :: rest =>
    (timeMatch (stripWS l1)).isSome && (l2 :: rest).any (fun ln => !(stripWS ln).isEmpty)
  | _ => false

/-- A dialogue line that cannot be wholly consumed by validated dangling
speaker tags: non-empty after stripping and not ending in `':'`. -/
def lineFlushable (ln : List Char) : Bool :=
  !(stripWS ln).isEmpty && !((stripWS ln).getLast? == some ':')

/-- The amended count for C4: gate passed and at least one dialogue line
that is non-empty after stripping and does not end with a colon. -/
def blockQualifiesAmended (block : List Char) : Bool :=
  match (stripWS block).splitOn '\n' with
  | _ :: l1 :: l2 :: rest =>
    (timeMatch (stripWS l1)).isSome && (l2 :: rest).any lineFlushable
  | _ => false

/-- The last segment of a list whose stripped form is non-empty (the
segment that decides whether a block's line leaves material in the
dialogue buffer). -/
def lastNE (segs : List (List Char)) : Option (List Char) :=
  (segs.filter (fun s => !(stripWS s).isEmpty)).getLast?

/-- Claim C1 as stated: `last_known_speaker` changes only at an emission
through the validated-tag path, never at a buffer flush (which attributes
through `block_initial_speaker` or `last_known_speaker` itself). -/
def C1Stated : Prop :=
  ∀ content : List Char, ∀ e ∈ (parse_full content).events,
    e.lkAfter ≠ e.lkBefore → e.kind = EmitKind.tagPath

/-- Claim C2 as stated: every buffer flush (a non-`tagPath` emission) uses
`block_initial_speaker` when no record has yet been emitted in the current
block, else the speaker of the most recently emitted record. -/
def C2Stated : Prop :=
  ∀ content : List Char, ∀ e ∈ (parse_full content).events,
    e.kind ≠ EmitKind.tagPath →
      e.speaker = (if e.blockEmitted then e.lkBefore else e.bis)

/-- Claim C3 as stated: every emitted record has non-empty (cleaned)
dialogue. -/
def C3Stated : Prop :=
  ∀ content : List Char, ∀ r ∈ parse_srt content, r.dialogue ≠ []

/-- Claim C4 as stated: at least one record per gated block having a
non-empty dialogue line. -/
def C4Stated : Prop :=
  ∀ content : List Char,
    (blockSplit (stripWS content)).countP blockQualifiesClaim ≤ (parse_srt content).length

-- Concrete transcripts used to refute the claims above.

/-- A dangling validated tag (`42:` with no same-line text) re-points
`block_initial_speaker`; the end-of-block flush then changes
`last_known_speaker` through the `flushBis` branch. -/
def exC1 : List Char := "1\n00:00:01,000 --> 00:00:02,000\n42:\nhello".toList

/-- Two blocks sharing the start timecode `00:00:01,000`: the second block's
end flush takes the `last_known_speaker` branch although no record was
emitted in that block and its `block_initial_speaker` is `"7"`. -/
def exC2 : List Char :=
  "1\n00:00:01,000 --> 00:00:02,000\n42: hi\n\n2\n00:00:01,000 --> 00:00:03,000\n7:\nmid".toList

/-- A block whose only dialogue text is a markup tag: the flushed record's
dialogue is empty after cleaning. -/
def exC3 : List Char := "1\n00:00:01,000 --> 00:00:02,000\n<i>".toList

/-- A gated block with the single non-empty dialogue line `42:`, wholly
consumed as a validated dangling tag: no record at all. -/
def exC4 : List Char := "1\n00:00:01,000 --> 00:00:02,000\n42:".toList

/-- The same-line multi-speaker example of the specification. -/
def exC8 : List Char :=
  "1\n00:00:01,000 --> 00:00:02,000\nTYLER: Good game. LEO: Thanks!".toList

/-- A malformed block: three lines but no timecode match. -/
def exC9 : List Char := "1\nbadtime\nhello".toList

/-- Every row the parser emits: the ghost `raw` field is the non-empty
pre-cleaning dialogue and `dialogue` is its cleaned form. -/
def rowBase (r : Row) : Prop := r.raw ≠ [] ∧ r.dialogue = clean_dialogue_text r.raw

/-- `rowBase` plus the row's timecodes: every row a block emits carries the
block's two captured timestamps. -/
def rowTS (ts1 ts2 : List Char) (r : Row) : Prop :=
  rowBase r ∧ r.time_start = ts1 ∧ r.time_end = ts2

/-- Constructional facts about every logged event: `last_known_speaker` is
always updated to the emitted speaker, a `flushBis` emission uses
`block_initial_speaker` and a `flushLast` emission uses the previous
`last_known_speaker`. -/
def evtOK (e : Event) : Prop :=
  e.lkAfter = e.speaker ∧
  (e.kind = EmitKind.flushBis → e.speaker = e.bis) ∧
  (e.kind = EmitKind.flushLast → e.speaker = e.lkBefore)

/-- `st2` extends `st1`: the rows, events and validated logs of `st1` are
prefixes of those of `st2`, every new row satisfies `P` and every new event
satisfies `Q`. -/
def StExt (P : Row → Prop) (Q : Event → Prop) (st1 st2 : ParseState) : Prop :=
  (∃ dr, st2.data = st1.data ++ dr ∧ ∀ r ∈ dr, P r) ∧
  (∃ de, st2.events = st1.events ++ de ∧ ∀ e ∈ de, Q e) ∧
  (∃ dv, st2.validated = st1.validated ++ dv)

/-- An event respects the amended invariants, relative to a validated-tag
log `V`: whenever the emission changed `last_known_speaker`, the new value
is the text of a previously validated tag; and a non-`tagPath` emission in a
block that already emitted a record always takes the `flushLast` branch. -/
def GoodEvt (V : List (List Char)) (e : Event) : Prop :=
  (e.lkAfter ≠ e.lkBefore → e.lkAfter ∈ V) ∧
  (e.kind ≠ EmitKind.tagPath → e.blockEmitted = true → e.kind = EmitKind.flushLast)

/-- All events of a state respect `GoodEvt` for its own validated log. -/
def GoodSt (st : ParseState) : Prop := ∀ e ∈ st.events, GoodEvt st.validated e

/-- The block_initial_speaker invariant: within a block with start timecode
`ts1`, `block_initial_speaker` is a validated tag, or still equals
`last_known_speaker`, or a record of this block (recognised by its start
timecode) was already emitted last. -/
def Jinv (ts1 : List Char) (ls : LoopSt) : Prop :=
  ls.bis ∈ ls.st.validated ∨ ls.bis = ls.st.last_known_speaker ∨
  (∃ r, ls.st.data.getLast? = some r ∧ r.time_start = ts1)

/-- The emitted-in-block flag is sound: when set, the most recent record
carries this block's start timecode. -/
def Kinv (ts1 : List Char) (ls : LoopSt) : Prop :=
  ls.be = true → (∃ r, ls.st.data.getLast? = some r ∧ r.time_start = ts1)

/-- Does the list contain a `'<'` followed (not necessarily adjacently) by a
`'>'` — i.e., can any of the four tag patterns of `clean_dialogue_text`
still match somewhere? -/
def hasTagPair : List Char → Bool
  | [] => false
  | c :: rest => (c == '<' && rest.contains '>') || hasTagPair rest

/-- Whitespace-normalised: every whitespace character is a single `' '`
not followed by further whitespace. -/
def wsOK : List Char → Bool
  | [] => true
  | c :: rest => (!(isWS c) || (c == ' ' && !(headIsWS rest))) && wsOK rest

-- --- BASIC LEMMAS ABOUT stripWS ---

theorem head?_dropWhile (p : Char → Bool) (l : List Char) :
    ∀ c, (l.dropWhile p).head? = some c → p c = false := by
  induction l with
  | nil => intro c h; simp at h
  | cons a t ih =>
    intro c h
    rw [List.dropWhile_cons] at h
    by_cases hp : p a
    · rw [if_pos hp] at h
      exact ih c h
    · rw [if_neg hp] at h
      simp at h
      subst h
      simpa using hp

theorem stripWS_eq_self (l : List Char)
    (h1 : ∀ c, l.head? = some c → isWS c = false)
    (h2 : ∀ c, l.getLast? = some c → isWS c = false) : stripWS l = l := by
  unfold stripWS
  have e1 : l.dropWhile isWS = l := by
    cases l with
    | nil => rfl
    | cons c t =>
      rw [List.dropWhile_cons, h1 c rfl]
      simp
  rw [e1]
  have e2 : l.reverse.dropWhile isWS = l.reverse := by
    cases hr : l.reverse with
    | nil => rfl
    | cons c t =>
      have hc : l.getLast? = some c := by
        rw [← List.head?_reverse, hr]; rfl
      rw [List.dropWhile_cons, h2 c hc]
      simp
  rw [e2, List.reverse_reverse]

theorem stripWS_decomp (l : List Char) :
    l = l.takeWhile isWS ++ (stripWS l ++ ((l.dropWhile isWS).reverse.takeWhile isWS).reverse) := by
  conv_lhs => rw [← List.takeWhile_append_dropWhile isWS l]
  have hd : l.dropWhile isWS
      = stripWS l ++ ((l.dropWhile isWS).reverse.takeWhile isWS).reverse := by
    conv_lhs => rw [← List.reverse_reverse (l.dropWhile isWS),
      ← List.takeWhile_append_dropWhile isWS (l.dropWhile isWS).reverse]
    rw [List.reverse_append]
    rfl
  rw [← hd]

theorem stripWS_head (l : List Char) :
    ∀ c, (stripWS l).head? = some c → isWS c = false := by
  intro c h
  have hs : stripWS l = ((l.dropWhile isWS).reverse.dropWhile isWS).reverse := rfl
  have hd : l.dropWhile isWS
      = stripWS l ++ ((l.dropWhile isWS).reverse.takeWhile isWS).reverse := by
    conv_lhs => rw [← List.reverse_reverse (l.dropWhile isWS),
      ← List.takeWhile_append_dropWhile isWS (l.dropWhile isWS).reverse]
    rw [List.reverse_append]
    rfl
  have hne : stripWS l ≠ [] := by
    intro he
    rw [he] at h
    simp at h
  have hh : (l.dropWhile isWS).head? = some c := by
    rw [hd, List.head?_append_of_ne_nil _ hne, h]
  exact head?_dropWhile isWS l c hh

theorem stripWS_getLast (l : List Char) :
    ∀ c, (stripWS l).getLast? = some c → isWS c = false := by
  intro c h
  have hs : (stripWS l).getLast?
      = ((l.dropWhile isWS).reverse.dropWhile isWS).head? := by
    rw [← List.head?_reverse]
    unfold stripWS
    rw [List.reverse_reverse]
  rw [hs] at h
  exact head?_dropWhile isWS _ c h

theorem stripWS_idem (l : List Char) : stripWS (stripWS l) = stripWS l :=
  stripWS_eq_self _ (stripWS_head l) (stripWS_getLast l)

-- --- C9: malformed blocks are skipped without any state change ---

/-- C9: a block with fewer than 3 raw lines, or whose second line fails the
timecode pattern, is skipped: no record is emitted and the whole parser
state (`last_known_speaker`, accumulated rows, and even the ghost logs) is
returned exactly as it was.  In this total model no exception can occur. -/
theorem C9_malformed_block_skipped (st : ParseState) (block : List Char)
    (h : ((stripWS block).splitOn '\n').length < 3 ∨
      timeMatch (stripWS (((stripWS block).splitOn '\n').getD 1 [])) = none) :
    parse_block st block = st := by
  have hpb : parse_block st block = parse_block_lines st ((stripWS block).splitOn '\n') := rfl
  rw [hpb]
  cases hl : (stripWS block).splitOn '\n' with
  | nil => rfl
  | cons a t =>
    cases t with
    | nil => rfl
    | cons l1 t2 =>
      cases t2 with
      | nil => rfl
      | cons l2 rest =>
        rw [hl] at h
        rcases h with h | h
        · simp at h
          omega
        · have h' : timeMatch (stripWS l1) = none := h
          simp [parse_block_lines, h']

/-- Witness for C9 on a concrete malformed block (timecode line fails). -/
theorem C9_malformed_block_skipped_witness : parse_block initState exC9 = initState :=
  C9_malformed_block_skipped initState exC9 (Or.inr (by decide))

-- --- C7: the line segmenter loses no text ---

theorem colonSpace_eq : ∀ (l r2 : List Char), colonSpace l = some r2 → l = ':' :: ' ' :: r2 := by
  intro l r2 h
  unfold colonSpace at h
  split at h
  · simp at h
    rw [h]
  · simp at h

theorem tagAt_join : ∀ (l t r : List Char), tagAt l = some (t, r) → t ++ r = l := by
  intro l
  induction l with
  | nil => intro t r h; simp [tagAt] at h
  | cons c rest ih =>
    intro t r h
    rw [tagAt] at h
    by_cases hc : wsc c
    · rw [if_pos hc] at h
      cases htag : tagAt rest with
      | some p =>
        obtain ⟨t0, r0⟩ := p
        rw [htag] at h
        simp at h
        obtain ⟨ht, hr⟩ := h
        subst ht; subst hr
        have h0 := ih t0 r0 htag
        simp [← h0]
      | none =>
        rw [htag] at h
        cases hcs : colonSpace rest with
        | some r2 =>
          rw [hcs] at h
          simp at h
          obtain ⟨ht, hr⟩ := h
          subst ht; subst hr
          rw [colonSpace_eq rest _ hcs]
          rfl
        | none =>
          rw [hcs] at h
          simp at h
    · rw [if_neg hc] at h
      simp at h

theorem tagAt_len : ∀ (l t r : List Char), tagAt l = some (t, r) → 3 ≤ t.length := by
  intro l
  induction l with
  | nil => intro t r h; simp [tagAt] at h
  | cons c rest ih =>
    intro t r h
    rw [tagAt] at h
    by_cases hc : wsc c
    · rw [if_pos hc] at h
      cases htag : tagAt rest with
      | some p =>
        obtain ⟨t0, r0⟩ := p
        rw [htag] at h
        simp at h
        obtain ⟨ht, _⟩ := h
        subst ht
        have h0 := ih t0 r0 htag
        simp
        omega
      | none =>
        rw [htag] at h
        cases hcs : colonSpace rest with
        | some r2 =>
          rw [hcs] at h
          simp at h
          obtain ⟨ht, _⟩ := h
          subst ht
          simp
        | none =>
          rw [hcs] at h
          simp at h
    · rw [if_neg hc] at h
      simp at h

theorem segSplitGo_join : ∀ (fuel : Nat) (l acc : List Char), l.length ≤ fuel →
    joinSegs (segSplitGo fuel l acc) = acc.reverse ++ l := by
  intro fuel
  induction fuel with
  | zero =>
    intro l acc h
    have hl : l = [] := List.eq_nil_of_length_eq_zero (Nat.le_zero.mp h)
    subst hl
    simp [segSplitGo, joinSegs]
  | succ n ih =>
    intro l acc h
    cases l with
    | nil => simp [segSplitGo, joinSegs]
    | cons c rest =>
      rw [segSplitGo]
      cases ht : tagAt (c :: rest) with
      | some p =>
        obtain ⟨t, r⟩ := p
        simp only []
        have hj := tagAt_join (c :: rest) t r ht
        have h3 := tagAt_len (c :: rest) t r ht
        have hlen : r.length ≤ n := by
          have hlen2 : t.length + r.length = rest.length + 1 := by
            rw [← List.length_append, hj]
            simp
          simp at h
          omega
        simp only [joinSegs, List.flatten_cons]
        have hr := ih r [] hlen
        simp only [joinSegs] at hr
        rw [hr]
        simp [← hj]
      | none =>
        simp only []
        have hlen : rest.length ≤ n := by
          simp at h
          omega
        have hr := ih rest (c :: acc) hlen
        rw [hr]
        simp

/-- C7: the line segmenter is lossless (concatenating all segments of the
split, captured tag delimiters and interstitial text alike, reproduces the
line exactly), and a segment is treated as a candidate tag segment exactly
when its stripped form ends in `':'` with length greater than 1. -/
theorem C7_segmenter_lossless (line : List Char)
    (_h1 : stripWS line = line) (_h2 : line ≠ []) :
    joinSegs (segSplit line) = line ∧
    ∀ seg : List Char, isCandidateSeg (stripWS seg) = true ↔
      ((stripWS seg).getLast? = some ':' ∧ 1 < (stripWS seg).length) := by
  constructor
  · have h0 := segSplitGo_join line.length line [] (le_refl _)
    simpa [segSplit] using h0
  · intro seg
    simp [isCandidateSeg]

/-- Witness: C7 applied to the concrete trimmed non-empty line
`"TYLER: hi"`. -/
theorem C7_segmenter_lossless_witness :
    stripWS ("TYLER: hi".toList) = "TYLER: hi".toList ∧
    ("TYLER: hi".toList ≠ []) ∧
    (joinSegs (segSplit ("TYLER: hi".toList)) = "TYLER: hi".toList ∧
      ∀ seg : List Char, isCandidateSeg (stripWS seg) = true ↔
        ((stripWS seg).getLast? = some ':' ∧ 1 < (stripWS seg).length)) :=
  ⟨by decide, by decide, C7_segmenter_lossless ("TYLER: hi".toList) (by decide) (by decide)⟩

-- --- STATE-EXTENSION LEMMAS ---

theorem StExt_refl (P : Row → Prop) (Q : Event → Prop) (st : ParseState) : StExt P Q st st :=
  ⟨⟨[], by simp, by simp⟩, ⟨[], by simp, by simp⟩, ⟨[], by simp⟩⟩

theorem StExt_trans {P : Row → Prop} {Q : Event → Prop} {a b c : ParseState}
    (h1 : StExt P Q a b) (h2 : StExt P Q b c) : StExt P Q a c := by
  obtain ⟨⟨d1, hd1, hp1⟩, ⟨e1, he1, hq1⟩, ⟨v1, hv1⟩⟩ := h1
  obtain ⟨⟨d2, hd2, hp2⟩, ⟨e2, he2, hq2⟩, ⟨v2, hv2⟩⟩ := h2
  refine ⟨⟨d1 ++ d2, ?_, ?_⟩, ⟨e1 ++ e2, ?_, ?_⟩, ⟨v1 ++ v2, ?_⟩⟩
  · rw [hd2, hd1, List.append_assoc]
  · intro r hr
    rcases List.mem_append.mp hr with h | h
    exacts [hp1 r h, hp2 r h]
  · rw [he2, he1, List.append_assoc]
  · intro e he
    rcases List.mem_append.mp he with h | h
    exacts [hq1 e h, hq2 e h]
  · rw [hv2, hv1, List.append_assoc]

theorem StExt_mono {P P' : Row → Prop} {Q Q' : Event → Prop}
    (hP : ∀ r, P r → P' r) (hQ : ∀ e, Q e → Q' e) {a b : ParseState}
    (h : StExt P Q a b) : StExt P' Q' a b := by
  obtain ⟨⟨d1, hd1, hp1⟩, ⟨e1, he1, hq1⟩, hv⟩ := h
  exact ⟨⟨d1, hd1, fun r hr => hP r (hp1 r hr)⟩, ⟨e1, he1, fun e he => hQ e (hq1 e he)⟩, hv⟩

theorem append_row_stExt (ts1 ts2 : List Char) (kind : EmitKind) (bis : List Char) (be : Bool)
    (st : ParseState) (speaker dialogue : List Char) (hd : dialogue ≠ [])
    (hk1 : kind = EmitKind.flushBis → speaker = bis)
    (hk2 : kind = EmitKind.flushLast → speaker = st.last_known_speaker) :
    StExt (rowTS ts1 ts2) evtOK st
      (append_row_and_update_state ts1 ts2 kind bis be st speaker dialogue) := by
  refine ⟨⟨[⟨ts1, ts2, speaker, clean_dialogue_text dialogue, dialogue⟩], rfl, ?_⟩,
          ⟨[⟨kind, speaker, st.last_known_speaker, speaker, bis, be⟩], rfl, ?_⟩,
          ⟨[], by simp [append_row_and_update_state]⟩⟩
  · intro r hr
    simp at hr
    subst hr
    exact ⟨⟨hd, rfl⟩, rfl, rfl⟩
  · intro e he
    simp at he
    subst he
    exact ⟨rfl, hk1, hk2⟩

theorem flush_stExt (ts1 ts2 : List Char) (ls : LoopSt) :
    StExt (rowTS ts1 ts2) evtOK ls.st (flushIfPending ts1 ts2 ls).st := by
  unfold flushIfPending
  by_cases hc : ls.cur = []
  · rw [if_pos hc]
    exact StExt_refl _ _ _
  · rw [if_neg hc]
    cases hl : ls.st.data.getLast? with
    | none =>
      simp only []
      exact append_row_stExt ts1 ts2 _ _ _ _ _ _ hc (fun _ => rfl) (fun h => nomatch h)
    | some r =>
      simp only []
      by_cases ht : r.time_start ≠ ts1
      · rw [if_pos ht]
        exact append_row_stExt ts1 ts2 _ _ _ _ _ _ hc (fun _ => rfl) (fun h => nomatch h)
      · rw [if_neg ht]
        exact append_row_stExt ts1 ts2 _ _ _ _ _ _ hc (fun h => nomatch h) (fun _ => rfl)

theorem tagStep_stExt (ts1 ts2 speaker_tag dseg : List Char) (ls : LoopSt) :
    StExt (rowTS ts1 ts2) evtOK ls.st (tagStep ts1 ts2 speaker_tag dseg ls).st := by
  have h0 : StExt (rowTS ts1 ts2) evtOK ls.st
      ({ ls with st := { ls.st with validated := ls.st.validated ++ [speaker_tag] } } : LoopSt).st :=
    ⟨⟨[], by simp, by simp⟩, ⟨[], by simp, by simp⟩, ⟨[speaker_tag], rfl⟩⟩
  by_cases hd : dseg = []
  · have he : (tagStep ts1 ts2 speaker_tag dseg ls).st
        = (flushIfPending ts1 ts2
            ({ ls with st := { ls.st with validated := ls.st.validated ++ [speaker_tag] } })).st := by
      simp [tagStep, hd]
    rw [he]
    exact StExt_trans h0 (flush_stExt _ _ _)
  · have he : (tagStep ts1 ts2 speaker_tag dseg ls).st
        = append_row_and_update_state ts1 ts2 .tagPath
            (flushIfPending ts1 ts2
              ({ ls with st := { ls.st with validated := ls.st.validated ++ [speaker_tag] } })).bis
            (flushIfPending ts1 ts2
              ({ ls with st := { ls.st with validated := ls.st.validated ++ [speaker_tag] } })).be
            (flushIfPending ts1 ts2
              ({ ls with st := { ls.st with validated := ls.st.validated ++ [speaker_tag] } })).st
            speaker_tag dseg := by
      simp [tagStep, hd]
    rw [he]
    exact StExt_trans h0 (StExt_trans (flush_stExt _ _ _)
      (append_row_stExt _ _ _ _ _ _ _ _ hd (fun h => nomatch h) (fun h => nomatch h)))

theorem procSegs_cons (ts1 ts2 : List Char) (seg : List Char) (rest : List (List Char))
    (ls : LoopSt) :
    procSegs ts1 ts2 (seg :: rest) ls =
      (if stripWS seg = [] then procSegs ts1 ts2 rest ls
       else if isCandidateSeg (stripWS seg) then
         (if is_valid_speaker_tag (stripWS (stripWS seg).dropLast) then
           match rest with
           | [] => tagStep ts1 ts2 (stripWS (stripWS seg).dropLast) [] ls
           | d :: rest2 =>
             procSegs ts1 ts2 rest2 (tagStep ts1 ts2 (stripWS (stripWS seg).dropLast) (stripWS d) ls)
         else
           match rest with
           | [] => invalidTagStep (stripWS seg) [] ls
           | d :: rest2 => procSegs ts1 ts2 rest2 (invalidTagStep (stripWS seg) (stripWS d) ls))
       else procSegs ts1 ts2 rest (plainTextStep (stripWS seg) ls)) := by
  rw [procSegs.eq_def]

theorem parse_block_lines_cons (st : ParseState) (l0 l1 l2 : List Char)
    (rest : List (List Char)) :
    parse_block_lines st (l0 :: l1 :: l2 :: rest) =
      (match timeMatch (stripWS l1) with
       | none => st
       | some (ts1, ts2) =>
         (flushIfPending ts1 ts2 ((l2 :: rest).foldl (processLine ts1 ts2)
             ⟨st, [], st.last_known_speaker, false⟩)).st) := rfl

theorem procSegs_stExt (ts1 ts2 : List Char) : ∀ (n : Nat) (segs : List (List Char)),
    segs.length ≤ n → ∀ ls : LoopSt,
    StExt (rowTS ts1 ts2) evtOK ls.st (procSegs ts1 ts2 segs ls).st := by
  intro n
  induction n with
  | zero =>
    intro segs h ls
    have hs : segs = [] := List.eq_nil_of_length_eq_zero (Nat.le_zero.mp h)
    subst hs
    exact StExt_refl _ _ _
  | succ n ih =>
    intro segs h ls
    cases segs with
    | nil => exact StExt_refl _ _ _
    | cons seg rest =>
      rw [procSegs_cons]
      have hrest : rest.length ≤ n := by
        simp at h
        omega
      by_cases h1 : stripWS seg = []
      · rw [if_pos h1]
        exact ih rest hrest ls
      · rw [if_neg h1]
        by_cases h2 : isCandidateSeg (stripWS seg) = true
        · rw [if_pos h2]
          by_cases h3 : is_valid_speaker_tag (stripWS (stripWS seg).dropLast) = true
          · rw [if_pos h3]
            cases rest with
            | nil => exact tagStep_stExt _ _ _ _ _
            | cons d rest2 =>
              have hr2 : rest2.length ≤ n := by
                simp at hrest ⊢
                omega
              exact StExt_trans (tagStep_stExt _ _ _ _ _) (ih rest2 hr2 _)
          · rw [if_neg h3]
            cases rest with
            | nil => exact StExt_refl _ _ _
            | cons d rest2 =>
              have hr2 : rest2.length ≤ n := by
                simp at hrest ⊢
                omega
              have he : (invalidTagStep (stripWS seg) (stripWS d) ls).st = ls.st := rfl
              have := ih rest2 hr2 (invalidTagStep (stripWS seg) (stripWS d) ls)
              rw [he] at this
              exact this
        · rw [if_neg h2]
          have he : (plainTextStep (stripWS seg) ls).st = ls.st := rfl
          have := ih rest hrest (plainTextStep (stripWS seg) ls)
          rw [he] at this
          exact this

theorem processLine_stExt (ts1 ts2 : List Char) (ls : LoopSt) (rawLine : List Char) :
    StExt (rowTS ts1 ts2) evtOK ls.st (processLine ts1 ts2 ls rawLine).st := by
  unfold processLine
  by_cases h : stripWS rawLine = []
  · rw [if_pos h]
    exact StExt_refl _ _ _
  · rw [if_neg h]
    exact procSegs_stExt ts1 ts2 (segSplit (stripWS rawLine)).length _ (le_refl _) ls

theorem foldl_lines_stExt (ts1 ts2 : List Char) : ∀ (lines : List (List Char)) (ls : LoopSt),
    StExt (rowTS ts1 ts2) evtOK ls.st ((lines.foldl (processLine ts1 ts2) ls).st) := by
  intro lines
  induction lines with
  | nil => intro ls; exact StExt_refl _ _ _
  | cons l t ih =>
    intro ls
    rw [List.foldl_cons]
    exact StExt_trans (processLine_stExt ts1 ts2 ls l) (ih _)

theorem parse_block_lines_gate_stExt (st : ParseState) (l0 l1 : List Char)
    (dlines : List (List Char)) (ts1 ts2 : List Char) (d0 : List Char)
    (hgate : timeMatch (stripWS l1) = some (ts1, ts2)) :
    StExt (rowTS ts1 ts2) evtOK st (parse_block_lines st (l0 :: l1 :: d0 :: dlines)) := by
  rw [parse_block_lines_cons, hgate]
  exact StExt_trans (foldl_lines_stExt ts1 ts2 (d0 :: dlines) _) (flush_stExt _ _ _)

theorem parse_block_stExt (st : ParseState) (block : List Char) :
    StExt rowBase evtOK st (parse_block st block) := by
  have hpb : parse_block st block = parse_block_lines st ((stripWS block).splitOn '\n') := rfl
  rw [hpb]
  cases hl : (stripWS block).splitOn '\n' with
  | nil => exact StExt_refl _ _ _
  | cons a t =>
    cases t with
    | nil => exact StExt_refl _ _ _
    | cons l1 t2 =>
      cases t2 with
      | nil => exact StExt_refl _ _ _
      | cons l2 rest =>
        cases hg : timeMatch (stripWS l1) with
        | none =>
          rw [parse_block_lines_cons, hg]
          exact StExt_refl _ _ _
        | some p =>
          obtain ⟨ts1, ts2⟩ := p
          exact StExt_mono (fun r hr => hr.1) (fun e he => he)
            (parse_block_lines_gate_stExt st a l1 rest ts1 ts2 l2 hg)

theorem parse_blocks_stExt : ∀ (blocks : List (List Char)) (st : ParseState),
    StExt rowBase evtOK st (blocks.foldl parse_block st) := by
  intro blocks
  induction blocks with
  | nil => intro st; exact StExt_refl _ _ _
  | cons b t ih =>
    intro st
    rw [List.foldl_cons]
    exact StExt_trans (parse_block_stExt st b) (ih _)

theorem parse_full_rows (content : List Char) :
    ∀ r ∈ (parse_full content).data, rowBase r := by
  intro r hr
  have h := parse_blocks_stExt (blockSplit (stripWS content)) initState
  obtain ⟨⟨dr, hdr, hp⟩, _, _⟩ := h
  have : (parse_full content).data = dr := by
    have h0 : (initState.data : List Row) = [] := rfl
    rw [parse_full, hdr, h0]
    simp
  rw [this] at hr
  exact hp r hr

theorem parse_full_events (content : List Char) :
    ∀ e ∈ (parse_full content).events, evtOK e := by
  intro e he
  have h := parse_blocks_stExt (blockSplit (stripWS content)) initState
  obtain ⟨_, ⟨de, hde, hq⟩, _⟩ := h
  have : (parse_full content).events = de := by
    have h0 : (initState.events : List Event) = [] := rfl
    rw [parse_full, hde, h0]
    simp
  rw [this] at he
  exact hq e he

-- --- C6 / C8: the lower-cased capitalization check rejects alphabetic tags ---

/-- C6: the validator rejects the exclusion-list phrases as the claim says,
but it also returns `false` on `"HOST"` and on `"Ethan & Leo"`: line 125 of
app.py lower-cases `first_word` before line 135 rejects any first word whose
first character is a lower-case letter, so every tag whose first normalized
word starts with a letter is rejected — contradicting the function's own
comments (`HOST, GUYS is OK`). -/
theorem C6_validator_values :
    is_valid_speaker_tag "The only problem".toList = false ∧
    is_valid_speaker_tag "things".toList = false ∧
    is_valid_speaker_tag "HOST".toList = false ∧
    is_valid_speaker_tag "Ethan & Leo".toList = false := by decide

/-- C8: on the line `"TYLER: Good game. LEO: Thanks!"` the code emits ONE
record with speaker `"Unknown"` and the whole line as dialogue, and
`last_known_speaker` stays `"Unknown"` — not the two records claimed —
because the validator bug (see C6) rejects `"TYLER"` and `"LEO"`, so both
tags are reconstructed into the dialogue buffer. -/
theorem C8_same_line_actual :
    parse_srt exC8 =
      [⟨"00:00:01,000".toList, "00:00:02,000".toList, "Unknown".toList,
        "TYLER: Good game. LEO: Thanks!".toList, "TYLER: Good game. LEO: Thanks!".toList⟩] ∧
    (parse_full exC8).last_known_speaker = "Unknown".toList :=
  ⟨by decide, by decide⟩

-- --- C3: emitted records and empty dialogue ---

/-- C3 counterexample: the claim fails on the transcript whose only dialogue
text is `"<i>"`; the code emits a record whose dialogue is empty after
cleaning (the flush guard tests the raw buffer, not the cleaned text). -/
theorem C3_counterexample : ¬ C3Stated := by
  intro h
  have h2 := h exC3
    ⟨"00:00:01,000".toList, "00:00:02,000".toList, "Unknown".toList, [], "<i>".toList⟩
    (by decide)
  exact h2 rfl

/-- C3 amended: every record emitted by `parse_srt` has a dialogue that is
non-empty BEFORE markup cleaning (both emission guards test the raw text),
and its `dialogue` field is exactly `clean_dialogue_text` of that raw text —
which may be empty. -/
theorem C3_amended_raw_nonempty (content : List Char) :
    ∀ r ∈ parse_srt content, r.raw ≠ [] ∧ r.dialogue = clean_dialogue_text r.raw := by
  intro r hr
  exact parse_full_rows content r hr

/-- Witness: C3 (amended) applied to the record of the `exC3` transcript. -/
theorem C3_amended_raw_nonempty_witness :
    (⟨"00:00:01,000".toList, "00:00:02,000".toList, "Unknown".toList, [], "<i>".toList⟩ : Row)
        ∈ parse_srt exC3 ∧
    ("<i>".toList ≠ [] ∧
      ([] : List Char) = clean_dialogue_text "<i>".toList) :=
  ⟨by decide, C3_amended_raw_nonempty exC3
    ⟨"00:00:01,000".toList, "00:00:02,000".toList, "Unknown".toList, [], "<i>".toList⟩
    (by decide)⟩

-- --- C1 / C2 / C4: counterexamples to the claims as stated ---

/-- C1 counterexample: on `exC1` the dangling validated tag `42:` re-points
`block_initial_speaker`, and the end-of-block flush — an emission through
the `flushBis` (inherited/default attribution) branch, not the
validated-tag path — changes `last_known_speaker` from `"Unknown"` to
`"42"`. -/
theorem C1_counterexample : ¬ C1Stated := by
  intro h
  have h2 := h exC1 ⟨.flushBis, "42".toList, "Unknown".toList, "42".toList, "42".toList, false⟩
    (by decide) (by decide)
  exact absurd h2 (by decide)

/-- C2 counterexample: on `exC2` the two blocks share the start timecode
`00:00:01,000`; the second block's end flush runs with no record yet emitted
in that block and `block_initial_speaker = "7"`, yet attributes to the most
recent speaker `"42"`, because the code's `data[-1][0] != time_start` proxy
confuses the previous block's record with one of the current block. -/
theorem C2_counterexample : ¬ C2Stated := by
  intro h
  have h2 := h exC2 ⟨.flushLast, "42".toList, "42".toList, "42".toList, "7".toList, false⟩
    (by decide) (by decide)
  exact absurd h2 (by decide)

/-- C4 counterexample: the gated block of `exC4` has the non-empty dialogue
line `42:`, which is wholly consumed as a validated dangling speaker tag, so
the block emits no record at all. -/
theorem C4_counterexample : ¬ C4Stated := by
  intro h
  exact absurd (h exC4) (by decide)

-- --- C10: the timecode gate is a prefix match ---

theorem isDigit_not_ws (c : Char) (h : c.isDigit = true) : isWS c = false := by
  have f : ∀ x : Char, x.isDigit = false → (c == x) = false := by
    intro x hx
    cases hb : c == x
    · rfl
    · have hcx : c = x := by simpa using hb
      subst hcx
      rw [h] at hx
      exact absurd hx (by simp)
  unfold isWS
  rw [f ' ' (by decide), f '\t' (by decide), f '\n' (by decide), f '\r' (by decide),
    f '\x0b' (by decide), f '\x0c' (by decide)]
  rfl

theorem parseTS_of_wfTS (a : List Char) (h : wfTS a = true) :
    ∀ r : List Char, parseTS (a ++ r) = some (a, r) := by
  intro r
  unfold wfTS at h
  split at h
  · next c1 c2 c3 c4 c5 c6 c7 c8 c9 =>
    simp only [List.cons_append, List.nil_append]
    simp [parseTS, h]
  · simp at h

theorem timeMatch_prefix (a b junk : List Char) (ha : wfTS a = true) (hb : wfTS b = true) :
    timeMatch (a ++ (arrowSep ++ (b ++ junk))) = some (a, b) := by
  unfold timeMatch
  rw [parseTS_of_wfTS a ha]
  simp only [arrowSep, List.cons_append, List.nil_append]
  rw [parseTS_of_wfTS b hb]

theorem wfTS_head (a : List Char) (h : wfTS a = true) :
    ∀ c, a.head? = some c → isWS c = false := by
  unfold wfTS at h
  split at h
  · next c1 c2 c3 c4 c5 c6 c7 c8 c9 =>
    intro c hc
    have h1 : ([c1, c2, ':', c3, c4, ':', c5, c6, ',', c7, c8, c9] : List Char).head?
        = some c1 := rfl
    rw [h1] at hc
    injection hc with hc
    subst hc
    simp at h
    obtain ⟨⟨⟨⟨⟨⟨⟨⟨h1, h2⟩, h3⟩, h4⟩, h5⟩, h6⟩, h7⟩, h8⟩, h9⟩ := h
    exact isDigit_not_ws c1 h1
  · simp at h

theorem wfTS_getLast (a : List Char) (h : wfTS a = true) :
    ∀ c, a.getLast? = some c → isWS c = false := by
  unfold wfTS at h
  split at h
  · next c1 c2 c3 c4 c5 c6 c7 c8 c9 =>
    intro c hc
    have hg : ([c1, c2, ':', c3, c4, ':', c5, c6, ',', c7, c8, c9] : List Char).getLast?
        = some c9 := rfl
    rw [hg] at hc
    injection hc with hc
    subst hc
    simp at h
    exact isDigit_not_ws c9 h.2
  · simp at h

theorem stripWS_timeline (a b : List Char) (ha : wfTS a = true) (hb : wfTS b = true) :
    stripWS (a ++ (arrowSep ++ b)) = a ++ (arrowSep ++ b) := by
  have hane : a ≠ [] := by
    intro he
    rw [he] at ha
    simp [wfTS] at ha
  have hbne : b ≠ [] := by
    intro he
    rw [he] at hb
    simp [wfTS] at hb
  apply stripWS_eq_self
  · intro c hc
    rw [List.head?_append_of_ne_nil _ hane] at hc
    exact wfTS_head a ha c hc
  · intro c hc
    rw [List.getLast?_append, List.getLast?_append] at hc
    cases hbl : b.getLast? with
    | none =>
      have hbn : b = [] := by
        cases b with
        | nil => rfl
        | cons x t => simp at hbl
      exact absurd hbn hbne
    | some cb =>
      rw [hbl] at hc
      simp at hc
      subst hc
      exact wfTS_getLast b hb cb hbl

/-- C10: the timecode gate is a prefix match.  Whenever the stripped second
line of a block begins with two well-formed timestamps separated by
`" --> "` and continues with arbitrary trailing characters, the gate
succeeds returning exactly the two capture groups, the block is processed
exactly as if the trailing characters were absent, and every record the
block emits carries exactly those two timestamps. -/
theorem C10_timecode_prefix_match (st : ParseState) (l0 l1 d0 : List Char)
    (dls : List (List Char)) (a b junk : List Char)
    (ha : wfTS a = true) (hb : wfTS b = true)
    (hline : stripWS l1 = a ++ (arrowSep ++ (b ++ junk))) :
    timeMatch (stripWS l1) = some (a, b) ∧
    parse_block_lines st (l0 :: l1 :: d0 :: dls)
      = parse_block_lines st (l0 :: (a ++ (arrowSep ++ b)) :: d0 :: dls) ∧
    ∃ extra, (parse_block_lines st (l0 :: l1 :: d0 :: dls)).data = st.data ++ extra ∧
      ∀ r ∈ extra, r.time_start = a ∧ r.time_end = b := by
  have htm : timeMatch (stripWS l1) = some (a, b) := by
    rw [hline]
    exact timeMatch_prefix a b junk ha hb
  have htm2 : timeMatch (stripWS (a ++ (arrowSep ++ b))) = some (a, b) := by
    rw [stripWS_timeline a b ha hb]
    have h0 := timeMatch_prefix a b [] ha hb
    simpa using h0
  refine ⟨htm, ?_, ?_⟩
  · rw [parse_block_lines_cons, parse_block_lines_cons, htm, htm2]
  · have hext := parse_block_lines_gate_stExt st l0 l1 dls a b d0 htm
    obtain ⟨⟨dr, hdr, hp⟩, _, _⟩ := hext
    exact ⟨dr, hdr, fun r hr => ⟨(hp r hr).2.1, (hp r hr).2.2⟩⟩

/-- Witness: C10 applied to a concrete timecode line with trailing junk
`" X98"`. -/
theorem C10_timecode_prefix_match_witness :
    wfTS "00:00:01,000".toList = true ∧
    wfTS "00:00:02,000".toList = true ∧
    stripWS "00:00:01,000 --> 00:00:02,000 X98".toList
      = "00:00:01,000".toList ++ (arrowSep ++ ("00:00:02,000".toList ++ " X98".toList)) ∧
    (timeMatch (stripWS "00:00:01,000 --> 00:00:02,000 X98".toList)
        = some ("00:00:01,000".toList, "00:00:02,000".toList) ∧
      parse_block_lines initState
          ("1".toList :: "00:00:01,000 --> 00:00:02,000 X98".toList :: "42: hi there".toList :: [])
        = parse_block_lines initState
          ("1".toList :: ("00:00:01,000".toList ++ (arrowSep ++ "00:00:02,000".toList))
            :: "42: hi there".toList :: []) ∧
      ∃ extra, (parse_block_lines initState
          ("1".toList :: "00:00:01,000 --> 00:00:02,000 X98".toList :: "42: hi there".toList
            :: [])).data = initState.data ++ extra ∧
        ∀ r ∈ extra, r.time_start = "00:00:01,000".toList ∧ r.time_end = "00:00:02,000".toList) :=
  ⟨by decide, by decide, by decide,
    C10_timecode_prefix_match initState "1".toList
      "00:00:01,000 --> 00:00:02,000 X98".toList "42: hi there".toList []
      "00:00:01,000".toList "00:00:02,000".toList " X98".toList
      (by decide) (by decide) (by decide)⟩

-- --- INVARIANTS FOR THE AMENDED C1 AND C2 ---

theorem flush_validated (ts1 ts2 : List Char) (ls : LoopSt) :
    (flushIfPending ts1 ts2 ls).st.validated = ls.st.validated := by
  unfold flushIfPending
  by_cases hc : ls.cur = []
  · rw [if_pos hc]
  · rw [if_neg hc]
    cases ls.st.data.getLast? with
    | none => rfl
    | some r =>
      simp only []
      by_cases ht : r.time_start ≠ ts1
      · rw [if_pos ht]
        rfl
      · rw [if_neg ht]
        rfl

theorem flush_inv (ts1 ts2 : List Char) (ls : LoopSt)
    (hJ : Jinv ts1 ls) (hK : Kinv ts1 ls) (hG : GoodSt ls.st) :
    Jinv ts1 (flushIfPending ts1 ts2 ls) ∧ Kinv ts1 (flushIfPending ts1 ts2 ls) ∧
    GoodSt (flushIfPending ts1 ts2 ls).st := by
  unfold flushIfPending
  by_cases hc : ls.cur = []
  · rw [if_pos hc]
    exact ⟨hJ, hK, hG⟩
  · rw [if_neg hc]
    cases hl : ls.st.data.getLast? with
    | none =>
      simp only []
      refine ⟨Or.inr (Or.inl rfl), ?_, ?_⟩
      · intro _
        exact ⟨⟨ts1, ts2, ls.bis, clean_dialogue_text ls.cur, ls.cur⟩,
          List.getLast?_concat _, rfl⟩
      · intro e he
        rcases List.mem_append.mp he with h | h
        · exact hG e h
        · simp at h
          subst h
          constructor
          · intro hne
            rcases hJ with h1 | h1 | h1
            · exact h1
            · exact absurd h1 hne
            · obtain ⟨r, hr, _⟩ := h1
              rw [hl] at hr
              exact absurd hr (by simp)
          · intro _ hbe
            obtain ⟨r, hr, _⟩ := hK hbe
            rw [hl] at hr
            exact absurd hr (by simp)
    | some r0 =>
      simp only []
      by_cases ht : r0.time_start ≠ ts1
      · rw [if_pos ht]
        refine ⟨Or.inr (Or.inl rfl), ?_, ?_⟩
        · intro _
          exact ⟨⟨ts1, ts2, ls.bis, clean_dialogue_text ls.cur, ls.cur⟩,
            List.getLast?_concat _, rfl⟩
        · intro e he
          rcases List.mem_append.mp he with h | h
          · exact hG e h
          · simp at h
            subst h
            constructor
            · intro hne
              rcases hJ with h1 | h1 | h1
              · exact h1
              · exact absurd h1 hne
              · obtain ⟨r, hr, hts⟩ := h1
                rw [hl] at hr
                have : r = r0 := by
                  injection hr with hr2
                  exact hr2.symm
                subst this
                exact absurd hts ht
            · intro _ hbe
              obtain ⟨r, hr, hts⟩ := hK hbe
              rw [hl] at hr
              have : r = r0 := by
                injection hr with hr2
                exact hr2.symm
              subst this
              exact absurd hts ht
      · rw [if_neg ht]
        push_neg at ht
        refine ⟨?_, ?_, ?_⟩
        · exact Or.inr (Or.inr ⟨⟨ts1, ts2, ls.st.last_known_speaker,
            clean_dialogue_text ls.cur, ls.cur⟩, List.getLast?_concat _, rfl⟩)
        · intro _
          exact ⟨⟨ts1, ts2, ls.st.last_known_speaker, clean_dialogue_text ls.cur, ls.cur⟩,
            List.getLast?_concat _, rfl⟩
        · intro e he
          rcases List.mem_append.mp he with h | h
          · exact hG e h
          · simp at h
            subst h
            constructor
            · intro hne
              exact absurd rfl hne
            · intro _ _
              rfl

theorem tagStep_inv (ts1 ts2 speaker_tag dseg : List Char) (ls : LoopSt)
    (hJ : Jinv ts1 ls) (hK : Kinv ts1 ls) (hG : GoodSt ls.st) :
    Jinv ts1 (tagStep ts1 ts2 speaker_tag dseg ls) ∧
    Kinv ts1 (tagStep ts1 ts2 speaker_tag dseg ls) ∧
    GoodSt (tagStep ts1 ts2 speaker_tag dseg ls).st := by
  -- step 0: the ghost validated log grows by the accepted tag
  have hJ0 : Jinv ts1
      ({ ls with st := { ls.st with validated := ls.st.validated ++ [speaker_tag] } } : LoopSt) := by
    rcases hJ with h1 | h1 | h1
    · exact Or.inl (List.mem_append.mpr (Or.inl h1))
    · exact Or.inr (Or.inl h1)
    · exact Or.inr (Or.inr h1)
  have hK0 : Kinv ts1
      ({ ls with st := { ls.st with validated := ls.st.validated ++ [speaker_tag] } } : LoopSt) := hK
  have hG0 : GoodSt
      ({ ls.st with validated := ls.st.validated ++ [speaker_tag] } : ParseState) := by
    intro e he
    have h0 := hG e he
    exact ⟨fun hne => List.mem_append.mpr (Or.inl (h0.1 hne)), h0.2⟩
  -- step 1: flush
  obtain ⟨hJ1, hK1, hG1⟩ := flush_inv ts1 ts2 _ hJ0 hK0 hG0
  have hstag1 : speaker_tag ∈ (flushIfPending ts1 ts2
      ({ ls with st := { ls.st with validated := ls.st.validated ++ [speaker_tag] } })).st.validated := by
    rw [flush_validated]
    exact List.mem_append.mpr (Or.inr (by simp))
  -- abbreviate the flushed state
  generalize hflush : flushIfPending ts1 ts2
      ({ ls with st := { ls.st with validated := ls.st.validated ++ [speaker_tag] } }) = ls1 at hJ1 hK1 hG1 hstag1
  -- step 2: optional immediate emission, then the block-context update
  by_cases hd : dseg = []
  · have heq : tagStep ts1 ts2 speaker_tag dseg ls
        = { ls1 with bis := if ls1.bis = ls1.st.last_known_speaker then speaker_tag else ls1.bis } := by
      simp [tagStep, hd, hflush]
    rw [heq]
    by_cases hb : ls1.bis = ls1.st.last_known_speaker
    · rw [if_pos hb]
      exact ⟨Or.inl hstag1, hK1, hG1⟩
    · rw [if_neg hb]
      exact ⟨hJ1, hK1, hG1⟩
  · have heq : tagStep ts1 ts2 speaker_tag dseg ls
        = (let ls2 : LoopSt :=
            { ls1 with
              st := append_row_and_update_state ts1 ts2 .tagPath ls1.bis ls1.be ls1.st speaker_tag dseg,
              be := true }
           { ls2 with bis := if ls2.bis = ls2.st.last_known_speaker then speaker_tag else ls2.bis }) := by
      simp [tagStep, hd, hflush]
    rw [heq]
    simp only []
    have hJ2 : Jinv ts1
        ({ ls1 with
          st := append_row_and_update_state ts1 ts2 .tagPath ls1.bis ls1.be ls1.st speaker_tag dseg,
          be := true } : LoopSt) :=
      Or.inr (Or.inr ⟨⟨ts1, ts2, speaker_tag, clean_dialogue_text dseg, dseg⟩,
        List.getLast?_concat _, rfl⟩)
    have hK2 : Kinv ts1
        ({ ls1 with
          st := append_row_and_update_state ts1 ts2 .tagPath ls1.bis ls1.be ls1.st speaker_tag dseg,
          be := true } : LoopSt) := by
      intro _
      exact ⟨⟨ts1, ts2, speaker_tag, clean_dialogue_text dseg, dseg⟩, List.getLast?_concat _, rfl⟩
    have hG2 : GoodSt
        (append_row_and_update_state ts1 ts2 .tagPath ls1.bis ls1.be ls1.st speaker_tag dseg) := by
      intro e he
      rcases List.mem_append.mp he with h | h
      · exact hG1 e h
      · simp at h
        subst h
        constructor
        · intro _
          exact hstag1
        · intro hk _
          exact absurd rfl hk
    by_cases hb : ls1.bis
        = (append_row_and_update_state ts1 ts2 .tagPath ls1.bis ls1.be ls1.st speaker_tag dseg).last_known_speaker
    · rw [if_pos hb]
      exact ⟨Or.inl hstag1, hK2, hG2⟩
    · rw [if_neg hb]
      exact ⟨hJ2, hK2, hG2⟩

theorem procSegs_inv (ts1 ts2 : List Char) : ∀ (n : Nat) (segs : List (List Char)),
    segs.length ≤ n → ∀ ls : LoopSt,
    Jinv ts1 ls → Kinv ts1 ls → GoodSt ls.st →
    Jinv ts1 (procSegs ts1 ts2 segs ls) ∧ Kinv ts1 (procSegs ts1 ts2 segs ls) ∧
    GoodSt (procSegs ts1 ts2 segs ls).st := by
  intro n
  induction n with
  | zero =>
    intro segs h ls hJ hK hG
    have hs : segs = [] := List.eq_nil_of_length_eq_zero (Nat.le_zero.mp h)
    subst hs
    exact ⟨hJ, hK, hG⟩
  | succ n ih =>
    intro segs h ls hJ hK hG
    cases segs with
    | nil => exact ⟨hJ, hK, hG⟩
    | cons seg rest =>
      rw [procSegs_cons]
      have hrest : rest.length ≤ n := by
        simp at h
        omega
      by_cases h1 : stripWS seg = []
      · rw [if_pos h1]
        exact ih rest hrest ls hJ hK hG
      · rw [if_neg h1]
        by_cases h2 : isCandidateSeg (stripWS seg) = true
        · rw [if_pos h2]
          by_cases h3 : is_valid_speaker_tag (stripWS (stripWS seg).dropLast) = true
          · rw [if_pos h3]
            cases rest with
            | nil => exact tagStep_inv _ _ _ _ _ hJ hK hG
            | cons d rest2 =>
              have hr2 : rest2.length ≤ n := by
                simp at hrest ⊢
                omega
              obtain ⟨hJ2, hK2, hG2⟩ := tagStep_inv ts1 ts2 (stripWS (stripWS seg).dropLast)
                (stripWS d) ls hJ hK hG
              exact ih rest2 hr2 _ hJ2 hK2 hG2
          · rw [if_neg h3]
            cases rest with
            | nil => exact ⟨hJ, hK, hG⟩
            | cons d rest2 =>
              have hr2 : rest2.length ≤ n := by
                simp at hrest ⊢
                omega
              exact ih rest2 hr2 _ hJ hK hG
        · rw [if_neg h2]
          exact ih rest hrest _ hJ hK hG

theorem processLine_inv (ts1 ts2 : List Char) (ls : LoopSt) (rawLine : List Char)
    (hJ : Jinv ts1 ls) (hK : Kinv ts1 ls) (hG : GoodSt ls.st) :
    Jinv ts1 (processLine ts1 ts2 ls rawLine) ∧ Kinv ts1 (processLine ts1 ts2 ls rawLine) ∧
    GoodSt (processLine ts1 ts2 ls rawLine).st := by
  unfold processLine
  by_cases h : stripWS rawLine = []
  · rw [if_pos h]
    exact ⟨hJ, hK, hG⟩
  · rw [if_neg h]
    exact procSegs_inv ts1 ts2 (segSplit (stripWS rawLine)).length _ (le_refl _) ls hJ hK hG

theorem foldl_lines_inv (ts1 ts2 : List Char) : ∀ (lines : List (List Char)) (ls : LoopSt),
    Jinv ts1 ls → Kinv ts1 ls → GoodSt ls.st →
    Jinv ts1 (lines.foldl (processLine ts1 ts2) ls) ∧
    Kinv ts1 (lines.foldl (processLine ts1 ts2) ls) ∧
    GoodSt ((lines.foldl (processLine ts1 ts2) ls)).st := by
  intro lines
  induction lines with
  | nil => intro ls hJ hK hG; exact ⟨hJ, hK, hG⟩
  | cons l t ih =>
    intro ls hJ hK hG
    rw [List.foldl_cons]
    obtain ⟨hJ2, hK2, hG2⟩ := processLine_inv ts1 ts2 ls l hJ hK hG
    exact ih _ hJ2 hK2 hG2

theorem parse_block_good (st : ParseState) (block : List Char) (hG : GoodSt st) :
    GoodSt (parse_block st block) := by
  have hpb : parse_block st block = parse_block_lines st ((stripWS block).splitOn '\n') := rfl
  rw [hpb]
  cases hl : (stripWS block).splitOn '\n' with
  | nil => exact hG
  | cons a t =>
    cases t with
    | nil => exact hG
    | cons l1 t2 =>
      cases t2 with
      | nil => exact hG
      | cons l2 rest =>
        cases hg : timeMatch (stripWS l1) with
        | none =>
          rw [parse_block_lines_cons, hg]
          exact hG
        | some p =>
          obtain ⟨ts1, ts2⟩ := p
          rw [parse_block_lines_cons, hg]
          have hJ0 : Jinv ts1 (⟨st, [], st.last_known_speaker, false⟩ : LoopSt) :=
            Or.inr (Or.inl rfl)
          have hK0 : Kinv ts1 (⟨st, [], st.last_known_speaker, false⟩ : LoopSt) := by
            intro h
            exact absurd h (by simp)
          obtain ⟨hJ1, hK1, hG1⟩ := foldl_lines_inv ts1 ts2 (l2 :: rest) _ hJ0 hK0 hG
          obtain ⟨_, _, hG2⟩ := flush_inv ts1 ts2 _ hJ1 hK1 hG1
          exact hG2

theorem parse_blocks_good : ∀ (blocks : List (List Char)) (st : ParseState),
    GoodSt st → GoodSt (blocks.foldl parse_block st) := by
  intro blocks
  induction blocks with
  | nil => intro st h; exact h
  | cons b t ih =>
    intro st h
    rw [List.foldl_cons]
    exact ih _ (parse_block_good st b h)

theorem parse_full_good (content : List Char) : GoodSt (parse_full content) := by
  unfold parse_full
  apply parse_blocks_good
  intro e he
  exact absurd he (by simp [initState])

/-- C1 amended: `last_known_speaker` is updated at EVERY emission to the
emitted record's speaker (the source's "CRITICAL FIX" comment), so a flush
through the default/inherited path can change it — but only when
`block_initial_speaker` was re-pointed by a validated dangling tag of the
same block.  Consequently: a `flushLast` emission never changes it, and
whenever it does change, the new value is the exact text of a tag that
`is_valid_speaker_tag` accepted earlier in the run. -/
theorem C1_amended_lk_changes_validated (content : List Char) :
    ∀ e ∈ (parse_full content).events,
      (e.kind = EmitKind.flushLast → e.lkAfter = e.lkBefore) ∧
      (e.lkAfter ≠ e.lkBefore → e.lkAfter ∈ (parse_full content).validated) := by
  intro e he
  constructor
  · intro hk
    have h := parse_full_events content e he
    exact h.1.trans (h.2.2 hk)
  · exact (parse_full_good content e he).1

/-- Witness: C1 (amended) applied to the `flushBis` emission of `exC1`,
whose new `last_known_speaker` value `"42"` is in the validated-tag log. -/
theorem C1_amended_lk_changes_validated_witness :
    (⟨EmitKind.flushBis, "42".toList, "Unknown".toList, "42".toList, "42".toList, false⟩ : Event)
        ∈ (parse_full exC1).events ∧
    ((EmitKind.flushBis = EmitKind.flushLast → "42".toList = "Unknown".toList) ∧
      ("42".toList ≠ "Unknown".toList → "42".toList ∈ (parse_full exC1).validated)) :=
  ⟨by decide, C1_amended_lk_changes_validated exC1
    ⟨EmitKind.flushBis, "42".toList, "Unknown".toList, "42".toList, "42".toList, false⟩
    (by decide)⟩

/-- C2 amended: a buffer flush uses `block_initial_speaker` exactly when the
output is empty or its last record's start timecode differs from the current
block's (the code's proxy for "no record emitted yet in this block"), and
the most recent speaker otherwise; if a record HAS been emitted in the
current block, the flush always uses the most recent speaker.  The claim's
rule fails only in the converse direction: when an earlier block shares this
block's start timecode, a flush may use the most recent speaker although no
record was emitted in the current block. -/
theorem C2_amended_flush_rule (content : List Char) :
    ∀ e ∈ (parse_full content).events, e.kind ≠ EmitKind.tagPath →
      (e.kind = EmitKind.flushBis → e.speaker = e.bis) ∧
      (e.kind = EmitKind.flushLast → e.speaker = e.lkBefore) ∧
      (e.blockEmitted = true → e.kind = EmitKind.flushLast) := by
  intro e he hk
  have h1 := parse_full_events content e he
  have h2 := parse_full_good content e he
  exact ⟨h1.2.1, h1.2.2, fun hbe => h2.2 hk hbe⟩

/-- Witness: C2 (amended) applied to the end-of-block flush of `exC2`. -/
theorem C2_amended_flush_rule_witness :
    (⟨EmitKind.flushLast, "42".toList, "42".toList, "42".toList, "7".toList, false⟩ : Event)
        ∈ (parse_full exC2).events ∧
    (EmitKind.flushLast ≠ EmitKind.tagPath) ∧
    ((EmitKind.flushLast = EmitKind.flushBis → "42".toList = "7".toList) ∧
      (EmitKind.flushLast = EmitKind.flushLast → "42".toList = "42".toList) ∧
      (false = true → EmitKind.flushLast = EmitKind.flushLast)) :=
  ⟨by decide, by decide, C2_amended_flush_rule exC2
    ⟨EmitKind.flushLast, "42".toList, "42".toList, "42".toList, "7".toList, false⟩
    (by decide) (by decide)⟩

-- --- C5: idempotence of clean_dialogue_text ---

theorem collapseWS_cons (c : Char) (rest : List Char) :
    collapseWS (c :: rest)
      = if isWS c then (if headIsWS rest then collapseWS rest else ' ' :: collapseWS rest)
        else c :: collapseWS rest := rfl

theorem dropThroughGt_cons (c : Char) (rest : List Char) :
    dropThroughGt (c :: rest) = if c = '>' then some rest else dropThroughGt rest := rfl

theorem hasTagPair_cons (c : Char) (rest : List Char) :
    hasTagPair (c :: rest) = ((c == '<' && rest.contains '>') || hasTagPair rest) := rfl

theorem wsOK_cons (c : Char) (rest : List Char) :
    wsOK (c :: rest) = ((!(isWS c) || (c == ' ' && !(headIsWS rest))) && wsOK rest) := rfl

theorem contains_append_or (x : Char) (a b : List Char) :
    (a ++ b).contains x = (a.contains x || b.contains x) := by
  induction a with
  | nil => simp
  | cons c t ih =>
    rw [List.cons_append, List.contains_cons, List.contains_cons, ih, Bool.or_assoc]

theorem dropThroughGt_none (l : List Char) (h : l.contains '>' = false) :
    dropThroughGt l = none := by
  induction l with
  | nil => rfl
  | cons c rest ih =>
    rw [List.contains_cons] at h
    have h2 := Bool.or_eq_false_iff.mp h
    rw [dropThroughGt_cons, if_neg ?_]
    · exact ih h2.2
    · intro he
      rw [he] at h2
      simp at h2

theorem dropThroughGt_some_none (l : List Char) (h : dropThroughGt l = none) :
    l.contains '>' = false := by
  induction l with
  | nil => rfl
  | cons c rest ih =>
    rw [dropThroughGt_cons] at h
    by_cases hc : c = '>'
    · rw [if_pos hc] at h
      exact absurd h (by simp)
    · rw [if_neg hc] at h
      rw [List.contains_cons, ih h]
      simp
      intro he
      exact absurd he.symm hc

theorem dropThroughGt_length (l : List Char) :
    ∀ a, dropThroughGt l = some a → a.length < l.length := by
  induction l with
  | nil => intro a h; simp [dropThroughGt] at h
  | cons c rest ih =>
    intro a h
    rw [dropThroughGt_cons] at h
    by_cases hc : c = '>'
    · rw [if_pos hc] at h
      injection h with h
      subst h
      simp
    · rw [if_neg hc] at h
      have := ih a h
      simp
      omega

theorem hasTagPair_no_gt (l : List Char) (h : l.contains '>' = false) :
    hasTagPair l = false := by
  induction l with
  | nil => rfl
  | cons c rest ih =>
    rw [List.contains_cons] at h
    have h2 := Bool.or_eq_false_iff.mp h
    rw [hasTagPair_cons, ih h2.2, h2.2]
    simp

theorem hasTagPair_append_left (a b : List Char) (h : hasTagPair (a ++ b) = false) :
    hasTagPair a = false := by
  induction a with
  | nil => rfl
  | cons c t ih =>
    rw [List.cons_append, hasTagPair_cons] at h
    have h2 := Bool.or_eq_false_iff.mp h
    rw [hasTagPair_cons, ih h2.2]
    have h3 : (c == '<' && t.contains '>') = false := by
      by_cases hc : (c == '<') = true
      · rw [hc] at h2 ⊢
        have h4 : (t ++ b).contains '>' = false := by
          have := h2.1
          simpa using this
        rw [contains_append_or] at h4
        have := (Bool.or_eq_false_iff.mp h4).1
        rw [this]
        rfl
      · have hc2 : (c == '<') = false := by
          cases hcb : c == '<'
          · rfl
          · exact absurd hcb hc
        rw [hc2]
        rfl
    rw [h3]
    rfl

theorem hasTagPair_append_right (a b : List Char) (h : hasTagPair (a ++ b) = false) :
    hasTagPair b = false := by
  induction a with
  | nil => exact h
  | cons c t ih =>
    rw [List.cons_append, hasTagPair_cons] at h
    exact ih (Bool.or_eq_false_iff.mp h).2

theorem hasTagPair_stripTagsGo : ∀ (f : Nat) (l : List Char), l.length ≤ f →
    hasTagPair (stripTagsGo f l) = false := by
  intro f
  induction f with
  | zero =>
    intro l h
    have hl : l = [] := List.eq_nil_of_length_eq_zero (Nat.le_zero.mp h)
    subst hl
    rfl
  | succ n ih =>
    intro l h
    cases l with
    | nil => rfl
    | cons x rest =>
      have hr : rest.length ≤ n := by
        simp at h
        omega
      by_cases hx : x = '<'
      · rw [show stripTagsGo (n + 1) (x :: rest)
            = if x = '<' then (match dropThroughGt rest with
                | some after => stripTagsGo n after
                | none => x :: rest)
              else x :: stripTagsGo n rest from rfl, if_pos hx]
        cases hd : dropThroughGt rest with
        | some after =>
          have hlen : after.length ≤ n := by
            have := dropThroughGt_length rest after hd
            omega
          exact ih after hlen
        | none =>
          have hng := dropThroughGt_some_none rest hd
          rw [hasTagPair_cons, hng, hasTagPair_no_gt rest hng]
          simp
      · rw [show stripTagsGo (n + 1) (x :: rest)
            = if x = '<' then (match dropThroughGt rest with
                | some after => stripTagsGo n after
                | none => x :: rest)
              else x :: stripTagsGo n rest from rfl, if_neg hx]
        rw [hasTagPair_cons, ih rest hr]
        have hxb : (x == '<') = false := by
          cases hxb2 : x == '<'
          · rfl
          · exact absurd (by simpa using hxb2) hx
        rw [hxb]
        rfl

theorem stripTagsGo_id (l : List Char) (h : hasTagPair l = false) :
    ∀ f : Nat, stripTagsGo f l = l := by
  induction l with
  | nil => intro f; cases f <;> rfl
  | cons x rest ih =>
    intro f
    rw [hasTagPair_cons] at h
    have h2 := Bool.or_eq_false_iff.mp h
    cases f with
    | zero => rfl
    | succ n =>
      rw [show stripTagsGo (n + 1) (x :: rest)
          = if x = '<' then (match dropThroughGt rest with
              | some after => stripTagsGo n after
              | none => x :: rest)
            else x :: stripTagsGo n rest from rfl]
      by_cases hx : x = '<'
      · rw [if_pos hx]
        have hng : rest.contains '>' = false := by
          have := h2.1
          rw [hx] at this
          simpa using this
        rw [dropThroughGt_none rest hng]
      · rw [if_neg hx, ih h2.2 n]

theorem subTagGo_succ_cons (c : Char) (n : Nat) (x : Char) (rest : List Char) :
    subTagGo c (n + 1) (x :: rest)
      = (if x = '<' then
          match rest with
          | [] => [x]
          | d :: rest2 =>
            if cieq d c then
              match dropThroughGt rest2 with
              | some afterOpen =>
                match findClose c afterOpen with
                | some (content, afterClose) =>
                  '(' :: (content ++ ')' :: subTagGo c n afterClose)
                | none => x :: subTagGo c n rest
              | none => x :: subTagGo c n rest
            else x :: subTagGo c n rest
        else x :: subTagGo c n rest) := by
  rw [subTagGo.eq_def]

theorem subTagGo_id (c : Char) (l : List Char) (h : hasTagPair l = false) :
    ∀ f : Nat, subTagGo c f l = l := by
  induction l with
  | nil => intro f; cases f <;> rfl
  | cons x rest ih =>
    intro f
    rw [hasTagPair_cons] at h
    have h2 := Bool.or_eq_false_iff.mp h
    cases f with
    | zero => rfl
    | succ n =>
      rw [subTagGo_succ_cons]
      by_cases hx : x = '<'
      · rw [if_pos hx]
        cases rest with
        | nil => rfl
        | cons d rest2 =>
          have hng : (d :: rest2).contains '>' = false := by
            have h3 := h2.1
            rw [hx] at h3
            simpa using h3
          have hng2 : rest2.contains '>' = false := by
            rw [List.contains_cons] at hng
            exact (Bool.or_eq_false_iff.mp hng).2
          simp only []
          by_cases hcd : cieq d c = true
          · rw [if_pos hcd, dropThroughGt_none rest2 hng2, ih h2.2 n]
          · rw [if_neg hcd, ih h2.2 n]
      · rw [if_neg hx, ih h2.2 n]

theorem headIsWS_collapseWS (l : List Char) (h : headIsWS l = false) :
    headIsWS (collapseWS l) = false := by
  cases l with
  | nil => rfl
  | cons c rest =>
    have hc : isWS c = false := h
    rw [collapseWS_cons, if_neg (by simp [hc] : ¬ isWS c = true)]
    exact hc

theorem wsOK_collapseWS (l : List Char) : wsOK (collapseWS l) = true := by
  induction l with
  | nil => rfl
  | cons c rest ih =>
    rw [collapseWS_cons]
    by_cases hw : isWS c = true
    · rw [if_pos hw]
      by_cases hh : headIsWS rest = true
      · rw [if_pos hh]
        exact ih
      · rw [if_neg hh]
        have hh2 : headIsWS rest = false := by
          cases hx : headIsWS rest
          · rfl
          · exact absurd hx hh
        rw [wsOK_cons, headIsWS_collapseWS rest hh2, ih]
        rfl
    · have hw2 : isWS c = false := by
        cases hx : isWS c
        · rfl
        · exact absurd hx hw
      rw [if_neg hw, wsOK_cons, ih, hw2]
      rfl

theorem headIsWS_append (a b : List Char) (h : a ≠ []) : headIsWS (a ++ b) = headIsWS a := by
  cases a with
  | nil => exact absurd rfl h
  | cons c t => rfl

theorem wsOK_append_left (a b : List Char) (h : wsOK (a ++ b) = true) : wsOK a = true := by
  induction a with
  | nil => rfl
  | cons c t ih =>
    rw [List.cons_append, wsOK_cons] at h
    have h2 := Bool.and_eq_true_iff.mp h
    rw [wsOK_cons, ih h2.2]
    have hcond : (!(isWS c) || (c == ' ' && !(headIsWS t))) = true := by
      have h3 := h2.1
      by_cases hw : isWS c = true
      · rw [hw] at h3 ⊢
        simp at h3 ⊢
        refine ⟨h3.1, ?_⟩
        cases t with
        | nil => simp [headIsWS]
        | cons u v =>
          rw [← headIsWS_append (u :: v) b (by simp)]
          exact h3.2
      · have hw2 : isWS c = false := by
          cases hx : isWS c
          · rfl
          · exact absurd hx hw
        rw [hw2]
        rfl
    rw [hcond]
    rfl

theorem wsOK_append_right (a b : List Char) (h : wsOK (a ++ b) = true) : wsOK b = true := by
  induction a with
  | nil => exact h
  | cons c t ih =>
    rw [List.cons_append, wsOK_cons] at h
    exact ih (Bool.and_eq_true_iff.mp h).2

theorem collapseWS_id_of_wsOK (l : List Char) (h : wsOK l = true) : collapseWS l = l := by
  induction l with
  | nil => rfl
  | cons c rest ih =>
    rw [wsOK_cons] at h
    have h2 := Bool.and_eq_true_iff.mp h
    rw [collapseWS_cons]
    by_cases hw : isWS c = true
    · rw [if_pos hw]
      have h3 := h2.1
      rw [hw] at h3
      simp at h3
      obtain ⟨hceq, hhr⟩ := h3
      rw [if_neg (by simp [hhr] : ¬ headIsWS rest = true), ih h2.2, hceq]
    · rw [if_neg hw, ih h2.2]

theorem wsOK_stripWS (l : List Char) (h : wsOK l = true) : wsOK (stripWS l) = true := by
  have h1 : wsOK (stripWS l ++ ((l.dropWhile isWS).reverse.takeWhile isWS).reverse) = true := by
    apply wsOK_append_right (l.takeWhile isWS)
    rw [← stripWS_decomp l]
    exact h
  exact wsOK_append_left _ _ h1

theorem hasTagPair_stripWS (l : List Char) (h : hasTagPair l = false) :
    hasTagPair (stripWS l) = false := by
  have h1 : hasTagPair (stripWS l ++ ((l.dropWhile isWS).reverse.takeWhile isWS).reverse)
      = false := by
    apply hasTagPair_append_right (l.takeWhile isWS)
    rw [← stripWS_decomp l]
    exact h
  exact hasTagPair_append_left _ _ h1

theorem contains_gt_collapseWS (l : List Char) (h : l.contains '>' = false) :
    (collapseWS l).contains '>' = false := by
  induction l with
  | nil => rfl
  | cons c rest ih =>
    rw [List.contains_cons] at h
    have h2 := Bool.or_eq_false_iff.mp h
    rw [collapseWS_cons]
    by_cases hw : isWS c = true
    · rw [if_pos hw]
      by_cases hh : headIsWS rest = true
      · rw [if_pos hh]
        exact ih h2.2
      · rw [if_neg hh, List.contains_cons, ih h2.2]
        rfl
    · rw [if_neg hw, List.contains_cons, ih h2.2, h2.1]
      rfl

theorem hasTagPair_collapseWS (l : List Char) (h : hasTagPair l = false) :
    hasTagPair (collapseWS l) = false := by
  induction l with
  | nil => rfl
  | cons c rest ih =>
    rw [hasTagPair_cons] at h
    have h2 := Bool.or_eq_false_iff.mp h
    rw [collapseWS_cons]
    by_cases hw : isWS c = true
    · rw [if_pos hw]
      by_cases hh : headIsWS rest = true
      · rw [if_pos hh]
        exact ih h2.2
      · rw [if_neg hh, hasTagPair_cons, ih h2.2]
        rfl
    · rw [if_neg hw, hasTagPair_cons, ih h2.2]
      by_cases hc : (c == '<') = true
      · have hng : rest.contains '>' = false := by
          have h3 := h2.1
          rw [hc] at h3
          simpa using h3
        rw [hc, contains_gt_collapseWS rest hng]
        rfl
      · have hc2 : (c == '<') = false := by
          cases hx : c == '<'
          · rfl
          · exact absurd hx hc
        rw [hc2]
        rfl

theorem normWS_idem (l : List Char) : normWS (normWS l) = normWS l := by
  unfold normWS
  rw [collapseWS_id_of_wsOK _ (wsOK_stripWS _ (wsOK_collapseWS l))]
  exact stripWS_idem _

theorem hasTagPair_normWS (l : List Char) (h : hasTagPair l = false) :
    hasTagPair (normWS l) = false :=
  hasTagPair_stripWS _ (hasTagPair_collapseWS l h)

theorem subTag_id (c : Char) (l : List Char) (h : hasTagPair l = false) : subTag c l = l :=
  subTagGo_id c l h l.length

theorem stripAllTags_id (l : List Char) (h : hasTagPair l = false) : stripAllTags l = l :=
  stripTagsGo_id l h l.length

/-- C5: `clean_dialogue_text` is idempotent.  After one pass the text
contains no `'<'` followed by a later `'>'` (so none of the four tag
substitutions can fire again) and its whitespace is fully normalised, so a
second pass changes nothing. -/
theorem C5_clean_idempotent (s : List Char) :
    clean_dialogue_text (clean_dialogue_text s) = clean_dialogue_text s := by
  unfold clean_dialogue_text
  set t := stripAllTags (subTag 'u' (subTag 'b' (subTag 'i' s))) with ht
  have htp : hasTagPair t = false := hasTagPair_stripTagsGo _ _ (le_refl _)
  have hn : hasTagPair (normWS t) = false := hasTagPair_normWS t htp
  rw [subTag_id 'i' _ hn, subTag_id 'b' _ hn, subTag_id 'u' _ hn, stripAllTags_id _ hn]
  exact normWS_idem t

-- --- C4: per-block record-count lower bound ---

theorem flush_len_mono (ts1 ts2 : List Char) (ls : LoopSt) :
    ls.st.data.length ≤ (flushIfPending ts1 ts2 ls).st.data.length := by
  obtain ⟨⟨dr, hdr, _⟩, _, _⟩ := flush_stExt ts1 ts2 ls
  rw [hdr, List.length_append]
  omega

theorem tagStep_len_mono (ts1 ts2 stg dseg : List Char) (ls : LoopSt) :
    ls.st.data.length ≤ (tagStep ts1 ts2 stg dseg ls).st.data.length := by
  obtain ⟨⟨dr, hdr, _⟩, _, _⟩ := tagStep_stExt ts1 ts2 stg dseg ls
  rw [hdr, List.length_append]
  omega

theorem procSegs_len_mono (ts1 ts2 : List Char) (segs : List (List Char)) (ls : LoopSt) :
    ls.st.data.length ≤ (procSegs ts1 ts2 segs ls).st.data.length := by
  obtain ⟨⟨dr, hdr, _⟩, _, _⟩ := procSegs_stExt ts1 ts2 segs.length segs (le_refl _) ls
  rw [hdr, List.length_append]
  omega

theorem processLine_len_mono (ts1 ts2 : List Char) (ls : LoopSt) (raw : List Char) :
    ls.st.data.length ≤ (processLine ts1 ts2 ls raw).st.data.length := by
  obtain ⟨⟨dr, hdr, _⟩, _, _⟩ := processLine_stExt ts1 ts2 ls raw
  rw [hdr, List.length_append]
  omega

theorem parse_block_len_mono (st : ParseState) (b : List Char) :
    st.data.length ≤ (parse_block st b).data.length := by
  obtain ⟨⟨dr, hdr, _⟩, _, _⟩ := parse_block_stExt st b
  rw [hdr, List.length_append]
  omega

theorem flush_len_strict (ts1 ts2 : List Char) (ls : LoopSt) (hc : ls.cur ≠ []) :
    (flushIfPending ts1 ts2 ls).st.data.length = ls.st.data.length + 1 := by
  unfold flushIfPending
  rw [if_neg hc]
  cases hl : ls.st.data.getLast? with
  | none => simp [append_row_and_update_state]
  | some r =>
    simp only []
    by_cases ht : r.time_start ≠ ts1
    · rw [if_pos ht]
      simp [append_row_and_update_state]
    · rw [if_neg ht]
      simp [append_row_and_update_state]

theorem tagStep_len_strict (ts1 ts2 stg dseg : List Char) (ls : LoopSt) (hc : ls.cur ≠ []) :
    ls.st.data.length + 1 ≤ (tagStep ts1 ts2 stg dseg ls).st.data.length := by
  by_cases hd : dseg = []
  · have heq : (tagStep ts1 ts2 stg dseg ls).st
        = (flushIfPending ts1 ts2
            ({ ls with st := { ls.st with validated := ls.st.validated ++ [stg] } })).st := by
      simp [tagStep, hd]
    have hf : (flushIfPending ts1 ts2
        ({ ls with st := { ls.st with validated := ls.st.validated ++ [stg] } })).st.data.length
        = ls.st.data.length + 1 :=
      flush_len_strict ts1 ts2 _ hc
    rw [heq, hf]
  · have heq : (tagStep ts1 ts2 stg dseg ls).st
        = append_row_and_update_state ts1 ts2 .tagPath
            (flushIfPending ts1 ts2
              ({ ls with st := { ls.st with validated := ls.st.validated ++ [stg] } })).bis
            (flushIfPending ts1 ts2
              ({ ls with st := { ls.st with validated := ls.st.validated ++ [stg] } })).be
            (flushIfPending ts1 ts2
              ({ ls with st := { ls.st with validated := ls.st.validated ++ [stg] } })).st
            stg dseg := by
      simp [tagStep, hd]
    have h1 : ls.st.data.length ≤ (flushIfPending ts1 ts2
        ({ ls with st := { ls.st with validated := ls.st.validated ++ [stg] } })).st.data.length :=
      flush_len_mono ts1 ts2
        ({ ls with st := { ls.st with validated := ls.st.validated ++ [stg] } })
    have h2 : (tagStep ts1 ts2 stg dseg ls).st.data.length
        = (flushIfPending ts1 ts2
            ({ ls with st := { ls.st with validated := ls.st.validated ++ [stg] } })).st.data.length
          + 1 := by
      rw [heq]
      simp [append_row_and_update_state]
    omega

theorem tagStep_len_dseg (ts1 ts2 stg dseg : List Char) (ls : LoopSt) (hd : dseg ≠ []) :
    ls.st.data.length + 1 ≤ (tagStep ts1 ts2 stg dseg ls).st.data.length := by
  have heq : (tagStep ts1 ts2 stg dseg ls).st
      = append_row_and_update_state ts1 ts2 .tagPath
          (flushIfPending ts1 ts2
            ({ ls with st := { ls.st with validated := ls.st.validated ++ [stg] } })).bis
          (flushIfPending ts1 ts2
            ({ ls with st := { ls.st with validated := ls.st.validated ++ [stg] } })).be
          (flushIfPending ts1 ts2
            ({ ls with st := { ls.st with validated := ls.st.validated ++ [stg] } })).st
          stg dseg := by
    simp [tagStep, hd]
  have h1 : ls.st.data.length ≤ (flushIfPending ts1 ts2
      ({ ls with st := { ls.st with validated := ls.st.validated ++ [stg] } })).st.data.length :=
    flush_len_mono ts1 ts2
      ({ ls with st := { ls.st with validated := ls.st.validated ++ [stg] } })
  have h2 : (tagStep ts1 ts2 stg dseg ls).st.data.length
      = (flushIfPending ts1 ts2
          ({ ls with st := { ls.st with validated := ls.st.validated ++ [stg] } })).st.data.length
        + 1 := by
    rw [heq]
    simp [append_row_and_update_state]
  omega

theorem plainTextStep_cur_ne (segment : List Char) (ls : LoopSt) (hs : segment ≠ []) :
    (plainTextStep segment ls).cur ≠ [] := by
  have heq : (plainTextStep segment ls).cur
      = if ls.cur = [] then segment else ls.cur ++ ' ' :: segment := rfl
  rw [heq]
  by_cases hc : ls.cur = []
  · rw [if_pos hc]
    exact hs
  · rw [if_neg hc]
    simp

theorem invalidTagStep_cur_ne (segment dseg : List Char) (ls : LoopSt) (hs : segment ≠ []) :
    (invalidTagStep segment dseg ls).cur ≠ [] := by
  have heq : (invalidTagStep segment dseg ls).cur
      = if ls.cur = [] then segment ++ ' ' :: dseg
        else ls.cur ++ ' ' :: (segment ++ ' ' :: dseg) := rfl
  rw [heq]
  by_cases hc : ls.cur = []
  · rw [if_pos hc]
    simp [hs]
  · rw [if_neg hc]
    simp

theorem procSegs_pres (ts1 ts2 : List Char) (n : Nat) : ∀ (f : Nat) (segs : List (List Char)),
    segs.length ≤ f → ∀ ls : LoopSt,
    n ≤ ls.st.data.length →
    (n + 1 ≤ ls.st.data.length ∨ ls.cur ≠ []) →
    (n + 1 ≤ (procSegs ts1 ts2 segs ls).st.data.length ∨ (procSegs ts1 ts2 segs ls).cur ≠ []) := by
  intro f
  induction f with
  | zero =>
    intro segs h ls hQ hP
    have hs : segs = [] := List.eq_nil_of_length_eq_zero (Nat.le_zero.mp h)
    subst hs
    exact hP
  | succ m ih =>
    intro segs h ls hQ hP
    cases segs with
    | nil => exact hP
    | cons seg rest =>
      rw [procSegs_cons]
      have hrest : rest.length ≤ m := by
        simp at h
        omega
      by_cases h1 : stripWS seg = []
      · rw [if_pos h1]
        exact ih rest hrest ls hQ hP
      · rw [if_neg h1]
        by_cases h2 : isCandidateSeg (stripWS seg) = true
        · rw [if_pos h2]
          by_cases h3 : is_valid_speaker_tag (stripWS (stripWS seg).dropLast) = true
          · rw [if_pos h3]
            rcases hP with hP | hP
            · -- already one extra record: monotonicity
              cases rest with
              | nil =>
                simp only []
                left
                exact le_trans hP (tagStep_len_mono _ _ _ _ _)
              | cons d rest2 =>
                have hr2 : rest2.length ≤ m := by
                  simp at hrest
                  omega
                apply ih rest2 hr2
                · exact le_trans hQ (tagStep_len_mono _ _ _ _ _)
                · left
                  exact le_trans hP (tagStep_len_mono _ _ _ _ _)
            · -- pending dialogue: the flush inside tagStep emits
              cases rest with
              | nil =>
                simp only []
                left
                have := tagStep_len_strict ts1 ts2 (stripWS (stripWS seg).dropLast) [] ls hP
                omega
              | cons d rest2 =>
                have hr2 : rest2.length ≤ m := by
                  simp at hrest
                  omega
                have hst := tagStep_len_strict ts1 ts2 (stripWS (stripWS seg).dropLast)
                  (stripWS d) ls hP
                apply ih rest2 hr2
                · omega
                · left
                  omega
          · rw [if_neg h3]
            cases rest with
            | nil =>
              right
              exact invalidTagStep_cur_ne _ _ ls h1
            | cons d rest2 =>
              have hr2 : rest2.length ≤ m := by
                simp at hrest
                omega
              apply ih rest2 hr2
              · exact hQ
              · right
                exact invalidTagStep_cur_ne _ _ ls h1
        · rw [if_neg h2]
          apply ih rest hrest
          · exact hQ
          · right
            exact plainTextStep_cur_ne _ ls h1

theorem stripWS_getLast_strong (l : List Char) (c : Char) (h : l.getLast? = some c)
    (hnw : isWS c = false) : (stripWS l).getLast? = some c := by
  have hd : l.dropWhile isWS ≠ [] := by
    intro he
    have hall := List.dropWhile_eq_nil_iff.mp he
    have hmem : c ∈ l := List.mem_of_mem_getLast? (by rw [h]; rfl)
    have := hall c hmem
    rw [hnw] at this
    exact absurd this (by simp)
  have hld : (l.dropWhile isWS).getLast? = some c := by
    conv at h => rw [← List.takeWhile_append_dropWhile isWS l]
    rw [List.getLast?_append] at h
    cases hgl : (l.dropWhile isWS).getLast? with
    | none => exact absurd (List.getLast?_eq_none_iff.mp hgl) hd
    | some x =>
      rw [hgl, Option.or_some] at h
      exact h
  have hrev : (l.dropWhile isWS).reverse.head? = some c := by
    rw [List.head?_reverse]
    exact hld
  have hdw : (l.dropWhile isWS).reverse.dropWhile isWS = (l.dropWhile isWS).reverse := by
    cases hr : (l.dropWhile isWS).reverse with
    | nil => rfl
    | cons x t =>
      rw [hr] at hrev
      injection hrev with hx
      subst hx
      rw [List.dropWhile_cons, hnw]
      simp
  unfold stripWS
  rw [hdw, List.reverse_reverse]
  exact hld

theorem lastNE_of_join : ∀ (segs : List (List Char)) (c : Char), isWS c = false →
    (joinSegs segs).getLast? = some c →
    ∃ t, lastNE segs = some t ∧ (stripWS t).getLast? = some c := by
  intro segs
  induction segs with
  | nil =>
    intro c _ hj
    simp [joinSegs] at hj
  | cons seg rest ih =>
    intro c hnw hj
    simp only [joinSegs, List.flatten_cons] at hj
    rw [List.getLast?_append] at hj
    cases hr : (joinSegs rest).getLast? with
    | none =>
      have hj2 : seg.getLast? = some c := by
        have hr2 : (rest.flatten).getLast? = none := hr
        rw [hr2, Option.none_or] at hj
        exact hj
      have hrnil : joinSegs rest = [] := List.getLast?_eq_none_iff.mp hr
      have hallnil : ∀ x ∈ rest, x = [] := List.flatten_eq_nil_iff.mp hrnil
      have hfilter : rest.filter (fun s => !(stripWS s).isEmpty) = [] := by
        rw [List.filter_eq_nil_iff]
        intro a ha
        rw [hallnil a ha]
        simp [stripWS]
      have hstrip := stripWS_getLast_strong seg c hj2 hnw
      have hsne : stripWS seg ≠ [] := by
        intro he
        rw [he] at hstrip
        simp at hstrip
      refine ⟨seg, ?_, hstrip⟩
      unfold lastNE
      rw [List.filter_cons, if_pos (by simp [hsne]), hfilter]
      rfl
    | some x =>
      have hx : x = c := by
        have hr2 : (rest.flatten).getLast? = some x := hr
        rw [hr2, Option.or_some] at hj
        injection hj
      subst hx
      obtain ⟨t, ht, hts⟩ := ih x hnw hr
      refine ⟨t, ?_, hts⟩
      unfold lastNE at ht ⊢
      rw [List.filter_cons]
      by_cases hse : (stripWS seg).isEmpty = true
      · rw [if_neg (by simp [List.isEmpty_iff.mp hse])]
        exact ht
      · rw [if_pos (by simp [hse])]
        rw [show (seg :: rest.filter (fun s => !(stripWS s).isEmpty))
            = [seg] ++ rest.filter (fun s => !(stripWS s).isEmpty) from rfl,
          List.getLast?_append, ht]
        rfl

theorem lastNE_cons_ne (seg : List Char) (rest : List (List Char)) (h : stripWS seg ≠ []) :
    lastNE (seg :: rest) = (lastNE rest).or (some seg) := by
  unfold lastNE
  rw [List.filter_cons, if_pos (by simp [h]),
    show (seg :: rest.filter (fun s => !(stripWS s).isEmpty))
      = [seg] ++ rest.filter (fun s => !(stripWS s).isEmpty) from rfl,
    List.getLast?_append]
  rfl

theorem lastNE_cons_empty (seg : List Char) (rest : List (List Char)) (h : stripWS seg = []) :
    lastNE (seg :: rest) = lastNE rest := by
  unfold lastNE
  rw [List.filter_cons, if_neg (by simp [h])]

theorem procSegs_establish (ts1 ts2 : List Char) (n : Nat) : ∀ (f : Nat) (segs : List (List Char)),
    segs.length ≤ f → ∀ ls : LoopSt,
    n ≤ ls.st.data.length →
    (∃ t, lastNE segs = some t ∧ ¬ (stripWS t).getLast? = some ':') →
    (n + 1 ≤ (procSegs ts1 ts2 segs ls).st.data.length ∨ (procSegs ts1 ts2 segs ls).cur ≠ []) := by
  intro f
  induction f with
  | zero =>
    intro segs h ls hQ hR
    have hs : segs = [] := List.eq_nil_of_length_eq_zero (Nat.le_zero.mp h)
    subst hs
    obtain ⟨t, ht, _⟩ := hR
    simp [lastNE] at ht
  | succ m ih =>
    intro segs h ls hQ hR
    cases segs with
    | nil =>
      obtain ⟨t, ht, _⟩ := hR
      simp [lastNE] at ht
    | cons seg rest =>
      rw [procSegs_cons]
      have hrest : rest.length ≤ m := by
        simp at h
        omega
      by_cases h1 : stripWS seg = []
      · rw [if_pos h1]
        apply ih rest hrest ls hQ
        rw [← lastNE_cons_empty seg rest h1]
        exact hR
      · rw [if_neg h1]
        by_cases h2 : isCandidateSeg (stripWS seg) = true
        · rw [if_pos h2]
          have hcolon : (stripWS seg).getLast? = some ':' := by
            unfold isCandidateSeg at h2
            have h3 := (Bool.and_eq_true_iff.mp h2).1
            simpa using h3
          obtain ⟨t, ht, hcol⟩ := hR
          rw [lastNE_cons_ne seg rest h1] at ht
          cases hlr : lastNE rest with
          | none =>
            rw [hlr, Option.none_or] at ht
            injection ht with ht
            subst ht
            exact absurd hcolon hcol
          | some t2 =>
            rw [hlr, Option.or_some] at ht
            have htt : t2 = t := by injection ht
            subst htt
            by_cases h3 : is_valid_speaker_tag (stripWS (stripWS seg).dropLast) = true
            · rw [if_pos h3]
              cases rest with
              | nil => simp [lastNE] at hlr
              | cons d rest2 =>
                have hr2 : rest2.length ≤ m := by
                  simp at hrest
                  omega
                by_cases hd : stripWS d = []
                · by_cases hc : ls.cur = []
                  · apply ih rest2 hr2 _ (le_trans hQ (tagStep_len_mono _ _ _ _ _))
                    rw [← lastNE_cons_empty d rest2 hd]
                    exact ⟨t2, hlr, hcol⟩
                  · have hst := tagStep_len_strict ts1 ts2 (stripWS (stripWS seg).dropLast)
                      (stripWS d) ls hc
                    exact procSegs_pres ts1 ts2 n rest2.length rest2 (le_refl _) _
                      (by omega) (Or.inl (by omega))
                · have hst := tagStep_len_dseg ts1 ts2 (stripWS (stripWS seg).dropLast)
                    (stripWS d) ls hd
                  exact procSegs_pres ts1 ts2 n rest2.length rest2 (le_refl _) _
                    (by omega) (Or.inl (by omega))
            · rw [if_neg h3]
              cases rest with
              | nil =>
                right
                exact invalidTagStep_cur_ne _ _ ls h1
              | cons d rest2 =>
                exact procSegs_pres ts1 ts2 n rest2.length rest2 (le_refl _) _ hQ
                  (Or.inr (invalidTagStep_cur_ne _ _ ls h1))
        · rw [if_neg h2]
          exact procSegs_pres ts1 ts2 n rest.length rest (le_refl _) _ hQ
            (Or.inr (plainTextStep_cur_ne _ ls h1))

theorem processLine_pres (ts1 ts2 : List Char) (n : Nat) (ls : LoopSt) (raw : List Char)
    (hQ : n ≤ ls.st.data.length)
    (hP : n + 1 ≤ ls.st.data.length ∨ ls.cur ≠ []) :
    n + 1 ≤ (processLine ts1 ts2 ls raw).st.data.length ∨
      (processLine ts1 ts2 ls raw).cur ≠ [] := by
  have heq : processLine ts1 ts2 ls raw
      = if stripWS raw = [] then ls else procSegs ts1 ts2 (segSplit (stripWS raw)) ls := rfl
  rw [heq]
  by_cases hne : stripWS raw = []
  · rw [if_pos hne]
    exact hP
  · rw [if_neg hne]
    exact procSegs_pres ts1 ts2 n (segSplit (stripWS raw)).length _ (le_refl _) ls hQ hP

theorem processLine_establish (ts1 ts2 : List Char) (n : Nat) (ls : LoopSt) (raw : List Char)
    (hQ : n ≤ ls.st.data.length) (hf : lineFlushable raw = true) :
    n + 1 ≤ (processLine ts1 ts2 ls raw).st.data.length ∨
      (processLine ts1 ts2 ls raw).cur ≠ [] := by
  unfold lineFlushable at hf
  obtain ⟨h1, h2⟩ := Bool.and_eq_true_iff.mp hf
  have hne : stripWS raw ≠ [] := by
    intro he
    rw [he] at h1
    simp at h1
  have heq : processLine ts1 ts2 ls raw
      = if stripWS raw = [] then ls else procSegs ts1 ts2 (segSplit (stripWS raw)) ls := rfl
  rw [heq, if_neg hne]
  cases hgl : (stripWS raw).getLast? with
  | none => exact absurd (List.getLast?_eq_none_iff.mp hgl) hne
  | some c =>
    have hcc : c ≠ ':' := by
      rw [hgl] at h2
      simp at h2
      exact h2
    have hcw : isWS c = false := stripWS_getLast raw c hgl
    have hj : joinSegs (segSplit (stripWS raw)) = stripWS raw := by
      have h3 := segSplitGo_join (stripWS raw).length (stripWS raw) [] (le_refl _)
      simpa [segSplit] using h3
    obtain ⟨t, ht, htc⟩ := lastNE_of_join (segSplit (stripWS raw)) c hcw (by rw [hj]; exact hgl)
    exact procSegs_establish ts1 ts2 n (segSplit (stripWS raw)).length (segSplit (stripWS raw))
      (le_refl _) ls hQ ⟨t, ht, by rw [htc]; simp [hcc]⟩

theorem foldl_lines_pres (ts1 ts2 : List Char) (n : Nat) :
    ∀ (lines : List (List Char)) (ls : LoopSt), n ≤ ls.st.data.length →
    (n + 1 ≤ ls.st.data.length ∨ ls.cur ≠ []) →
    (n + 1 ≤ (lines.foldl (processLine ts1 ts2) ls).st.data.length ∨
      (lines.foldl (processLine ts1 ts2) ls).cur ≠ []) := by
  intro lines
  induction lines with
  | nil =>
    intro ls _ hP
    exact hP
  | cons l rest ih =>
    intro ls hQ hP
    rw [List.foldl_cons]
    exact ih _ (le_trans hQ (processLine_len_mono ts1 ts2 ls l))
      (processLine_pres ts1 ts2 n ls l hQ hP)

theorem foldl_lines_establish (ts1 ts2 : List Char) (n : Nat) :
    ∀ (lines : List (List Char)) (ls : LoopSt), n ≤ ls.st.data.length →
    lines.any lineFlushable = true →
    (n + 1 ≤ (lines.foldl (processLine ts1 ts2) ls).st.data.length ∨
      (lines.foldl (processLine ts1 ts2) ls).cur ≠ []) := by
  intro lines
  induction lines with
  | nil =>
    intro ls _ hany
    simp at hany
  | cons l rest ih =>
    intro ls hQ hany
    rw [List.foldl_cons]
    by_cases hf : lineFlushable l = true
    · exact foldl_lines_pres ts1 ts2 n rest _ (le_trans hQ (processLine_len_mono _ _ _ _))
        (processLine_establish ts1 ts2 n ls l hQ hf)
    · have hany2 : rest.any lineFlushable = true := by
        rw [List.any_cons] at hany
        rcases Bool.or_eq_true_iff.mp hany with h | h
        · exact absurd h hf
        · exact h
      exact ih _ (le_trans hQ (processLine_len_mono _ _ _ _)) hany2

theorem foldl_lines_len_mono (ts1 ts2 : List Char) (lines : List (List Char)) (ls : LoopSt) :
    ls.st.data.length ≤ ((lines.foldl (processLine ts1 ts2) ls).st.data.length) := by
  obtain ⟨⟨dr, hdr, _⟩, _, _⟩ := foldl_lines_stExt ts1 ts2 lines ls
  rw [hdr, List.length_append]
  omega

theorem block_core_establish (ts1 ts2 : List Char) (lines : List (List Char)) (ls0 : LoopSt)
    (hany : lines.any lineFlushable = true) :
    ls0.st.data.length + 1
      ≤ (flushIfPending ts1 ts2 (lines.foldl (processLine ts1 ts2) ls0)).st.data.length := by
  have h1 := foldl_lines_establish ts1 ts2 ls0.st.data.length lines ls0 (le_refl _) hany
  rcases h1 with h1 | h1
  · have h2 := flush_len_mono ts1 ts2 (lines.foldl (processLine ts1 ts2) ls0)
    omega
  · have h2 := flush_len_strict ts1 ts2 (lines.foldl (processLine ts1 ts2) ls0) h1
    have h3 := foldl_lines_len_mono ts1 ts2 lines ls0
    omega

theorem parse_block_establish (st : ParseState) (b : List Char)
    (hq : blockQualifiesAmended b = true) :
    st.data.length + 1 ≤ (parse_block st b).data.length := by
  unfold blockQualifiesAmended at hq
  unfold parse_block parse_block_lines
  cases hsp : (stripWS b).splitOn '\n' with
  | nil =>
    rw [hsp] at hq
    simp only [] at hq
    exact Bool.noConfusion hq
  | cons l0 t0 =>
    cases t0 with
    | nil =>
      rw [hsp] at hq
      simp only [] at hq
      exact Bool.noConfusion hq
    | cons l1 t1 =>
      cases t1 with
      | nil =>
        rw [hsp] at hq
        simp only [] at hq
        exact Bool.noConfusion hq
      | cons l2 rest =>
        rw [hsp] at hq
        simp only [] at hq
        obtain ⟨htm, hany⟩ := Bool.and_eq_true_iff.mp hq
        simp only []
        cases htm2 : timeMatch (stripWS l1) with
        | none =>
          rw [htm2] at htm
          simp at htm
        | some p =>
          obtain ⟨ts1, ts2⟩ := p
          simp only []
          exact block_core_establish ts1 ts2 (l2 :: rest)
            { st := st, cur := [], bis := st.last_known_speaker, be := false } hany

theorem parse_blocks_count : ∀ (blocks : List (List Char)) (st : ParseState),
    st.data.length + blocks.countP blockQualifiesAmended
      ≤ (blocks.foldl parse_block st).data.length := by
  intro blocks
  induction blocks with
  | nil =>
    intro st
    simp
  | cons b rest ih =>
    intro st
    rw [List.foldl_cons, List.countP_cons]
    by_cases hq : blockQualifiesAmended b = true
    · have h1 := parse_block_establish st b hq
      have h2 := ih (parse_block st b)
      simp only [hq, if_true]
      omega
    · have h1 := parse_block_len_mono st b
      have h2 := ih (parse_block st b)
      simp [hq]
      omega

/-- C4 (amended): the number of emitted records is at least the number of
blocks that pass the timecode gate and contain at least one dialogue line
which is non-empty after stripping and does not end in a colon. (The
original claim counted every gate-passing block with any non-empty dialogue
line, but a block whose only non-empty line ends in ':' can be wholly
consumed as validated dangling speaker tags and emit nothing.) -/
theorem C4_amended_flushable_blocks (content : List Char) :
    (blockSplit (stripWS content)).countP blockQualifiesAmended
      ≤ (parse_srt content).length := by
  have h := parse_blocks_count (blockSplit (stripWS content)) initState
  simpa [parse_srt, parse_full, initState] using h
